import Mathlib

/-!
# Verification of the Track Matching & Deduplication Engine

Shallow embedding, in Lean 4, of the core matching/deduplication code of the
`musicmegacomparator` repository, together with theorems settling the frozen
claims about its specification.

Embedded source functions (Python) and their Lean counterparts:

* `normalize_text` (`src/musiclib/playlist_cleaner.py:682`,
  `src/playlist_deduper.py:42`, identical bodies) → `normalizeChars` /
  `normalize_text`; the variant of `src/advanced_playlist_cleaner.py:41`
  (smaller keyword list) → `advNormalizeChars`.
* `PlaylistCleaner._parse_duration` / `PlaylistDuplicate._parse_duration`
  (identical) → `parse_duration`.
* `PlaylistCleaner._calculate_duplicate_confidence` /
  `PlaylistDuplicate._calculate_confidence` → `calcDuplicateConfidence`.
* `PlaylistCleaner._duplicate_needs_review` → `cleanerNeedsReview`;
  `PlaylistDuplicate._needs_review` → `deduperNeedsReview` (the two differ in
  how failed duration parses are filtered).
* `DuplicateGroup._decide_which_to_keep` + `_track_preference_score`
  (`src/musiclib/playlist_cleaner.py:67`) and the identical
  `PlaylistDuplicate` version (`src/playlist_deduper.py:141`) →
  `decideWhichToKeep` / `trackPreferenceScore`.
* `PlaylistCleaner.create_track_signature` / `find_playlist_internal_duplicates`
  → `createTrackSignature` / `findPlaylistInternalDuplicates`.
* `PlaylistCleaner.find_library_duplicates_with_similarity` →
  `findLibraryDuplicatesWithSimilarity` (the `difflib.SequenceMatcher.ratio`
  similarity, an external library call, is a parameter `sim`).
* `PerformanceOptimizer.memory_efficient_comparison`
  (`src/performance_optimization.py:120`) → `memMatchSource` plus the index
  builders (the external `matcher.find_best_match` argument is a parameter).
* `YouTubeMusicDeduplicator.find_duplicates`
  (`src/ytm-dedup-main/youtube_music_deduplicator.py:71`) → `findDuplicates`
  (similarity predicate is a parameter; groups are recorded by index).

Modelling conventions: Python `str` is `List Char` (wrapped in `String` at the
boundary); the regex character classes `\w` and `\s` and `str.lower()` are
modelled on their ASCII meaning (`isWordChar`, `isPySpace`, `pyToLower`);
Python floats are modelled as `ℚ` — every float comparison performed by the
embedded code compares values whose exact rational comparison agrees with the
float comparison at the magnitudes involved; Python `int` is `ℤ`.
-/

/-! ## Character model (ASCII fragment of Python's `\s`, `\w`, `str.lower`) -/

/-- Python regex `\s` (ASCII): space, tab, newline, carriage return,
vertical tab, form feed. -/
def isPySpace (c : Char) : Bool :=
  c.toNat = 32 || c.toNat = 9 || c.toNat = 10 || c.toNat = 13 ||
    c.toNat = 11 || c.toNat = 12

/-- ASCII decimal digit, regex `\d`. -/
def isAsciiDigit (c : Char) : Bool :=
  48 ≤ c.toNat && c.toNat ≤ 57

/-- Python regex `\w` (ASCII): letters, digits and underscore. -/
def isWordChar (c : Char) : Bool :=
  isAsciiDigit c || (65 ≤ c.toNat && c.toNat ≤ 90) ||
    (97 ≤ c.toNat && c.toNat ≤ 122) || c.toNat = 95

/-- Python `str.lower` on one character (ASCII). -/
def pyToLower (c : Char) : Char :=
  if 65 ≤ c.toNat ∧ c.toNat ≤ 90 then Char.ofNat (c.toNat + 32) else c

theorem toNat_ofNat_valid (n : Nat) (h : n.isValidChar) : (Char.ofNat n).toNat = n := by
  simp [Char.ofNat, h, Char.ofNatAux, Char.toNat, UInt32.toNat]

theorem char_eq_iff_toNat (a b : Char) : a = b ↔ a.toNat = b.toNat := by
  constructor
  · rintro rfl; rfl
  · intro h
    exact Char.ext (UInt32.toNat.inj h)

theorem toNat_pyToLower_upper (c : Char) (h : 65 ≤ c.toNat ∧ c.toNat ≤ 90) :
    (pyToLower c).toNat = c.toNat + 32 := by
  rw [pyToLower, if_pos h]
  exact toNat_ofNat_valid _ (Or.inl (by omega))

theorem pyToLower_eq_self (c : Char) (h : ¬(65 ≤ c.toNat ∧ c.toNat ≤ 90)) :
    pyToLower c = c := by
  rw [pyToLower, if_neg h]

theorem pyToLower_idem (c : Char) : pyToLower (pyToLower c) = pyToLower c := by
  by_cases h : 65 ≤ c.toNat ∧ c.toNat ≤ 90
  · have h1 := toNat_pyToLower_upper c h
    exact pyToLower_eq_self _ (by omega)
  · rw [pyToLower_eq_self c h, pyToLower_eq_self c h]

theorem isPySpace_pyToLower (c : Char) : isPySpace (pyToLower c) = isPySpace c := by
  by_cases h : 65 ≤ c.toNat ∧ c.toNat ≤ 90
  · have h1 := toNat_pyToLower_upper c h
    have hL : isPySpace (pyToLower c) = false := by
      simp only [isPySpace, h1, Bool.or_eq_false_iff, decide_eq_false_iff_not]
      omega
    have hR : isPySpace c = false := by
      simp only [isPySpace, Bool.or_eq_false_iff, decide_eq_false_iff_not]
      omega
    rw [hL, hR]
  · rw [pyToLower_eq_self c h]

theorem isWordChar_pyToLower (c : Char) : isWordChar (pyToLower c) = isWordChar c := by
  by_cases h : 65 ≤ c.toNat ∧ c.toNat ≤ 90
  · have h1 := toNat_pyToLower_upper c h
    have hL : isWordChar (pyToLower c) = true := by
      simp only [isWordChar, isAsciiDigit, h1, Bool.or_eq_true, Bool.and_eq_true,
        decide_eq_true_eq]
      omega
    have hR : isWordChar c = true := by
      simp only [isWordChar, isAsciiDigit, Bool.or_eq_true, Bool.and_eq_true,
        decide_eq_true_eq]
      omega
    rw [hL, hR]
  · rw [pyToLower_eq_self c h]

theorem isWordChar_not_space (c : Char) (h : isWordChar c = true) :
    isPySpace c = false := by
  simp only [isWordChar, isAsciiDigit, Bool.or_eq_true, decide_eq_true_eq,
    Bool.and_eq_true] at h
  simp only [isPySpace, Bool.or_eq_false_iff, decide_eq_false_iff_not]
  omega

/-! ## The regex substitutions of `normalize_text`

Each `re.sub(pattern, '', text)` is embedded as a left-to-right scan that, at
each position, attempts the pattern and on success deletes the matched span and
resumes after it (Python `re.sub` semantics for deleting substitutions). -/

/-- One attempted match, anchored at the head of `s`, of the pattern
`\s*OP[^CL]*(?:key1|key2|…)[^CL]*CL` with `re.IGNORECASE` (the parenthetical /
bracketed version-indicator patterns of `normalize_text`).  Because `[^CL]*`
cannot cross `CL`, a match consumes the leading whitespace run, the opener, the
content up to the first closer, and that closer; it succeeds iff the closer
exists and the content contains one of the keywords case-insensitively.
Returns the remainder of the string after the match. -/
def matchSpan (keys : List (List Char)) (op cl : Char) (s : List Char) :
    Option (List Char) :=
  match s.dropWhile isPySpace with
  | [] => none
  | c :: cs =>
    if c = op then
      match cs.dropWhile (fun d => !(d = cl : Bool)) with
      | [] => none
      | _ :: after =>
        if keys.any (fun k =>
            decide (k <:+: (cs.takeWhile (fun d => !(d = cl : Bool))).map pyToLower)) then
          some after
        else none
    else none

theorem matchSpan_length {keys : List (List Char)} {op cl : Char} {s after : List Char}
    (h : matchSpan keys op cl s = some after) : after.length < s.length := by
  unfold matchSpan at h
  split at h
  · exact absurd h (by simp)
  next c cs hrest =>
    have h1 : cs.length < s.length := by
      have h2 := (List.dropWhile_suffix (l := s) isPySpace).length_le
      rw [hrest] at h2
      simp only [List.length_cons] at h2
      omega
    split at h
    · split at h
      · exact absurd h (by simp)
      next x af h2 =>
        have h3 : af.length < cs.length := by
          have h4 := (List.dropWhile_suffix (l := cs) (fun d => !(d = cl : Bool))).length_le
          rw [h2] at h4
          simp only [List.length_cons] at h4
          omega
        split at h
        · cases h
          omega
        · exact absurd h (by simp)
    · exact absurd h (by simp)

/-- `re.sub` deleting scan for `matchSpan`, on explicit fuel (structural
recursion so that the kernel can evaluate it; `matchSpan_length` shows each
match consumes fuel, so fuel `s.length` never runs out — see
`stripSpansF_fuel`). -/
def stripSpansF (keys : List (List Char)) (op cl : Char) : ℕ → List Char → List Char
  | 0, s => s
  | _ + 1, [] => []
  | fuel + 1, c :: cs =>
    match matchSpan keys op cl (c :: cs) with
    | some rest => stripSpansF keys op cl fuel rest
    | none => c :: stripSpansF keys op cl fuel cs

/-- `re.sub` deleting scan for `matchSpan`:
`re.sub(r'\s*\(OP...CL pattern...', '', text)`. -/
def stripSpans (keys : List (List Char)) (op cl : Char) (s : List Char) : List Char :=
  stripSpansF keys op cl s.length s

/-- Strip one closing parenthesis, if present (the trailing `\)?` of the year
pattern). -/
def dropCloseParen : List Char → List Char
  | c :: after => if c.toNat = 41 then after else c :: after
  | [] => []

/-- Four leading ASCII digits then an optional `)` — the `\d{4}\)?` tail of the
year pattern. -/
def matchYearDigits : List Char → Option (List Char)
  | d1 :: d2 :: d3 :: d4 :: rest2 =>
    if isAsciiDigit d1 && isAsciiDigit d2 && isAsciiDigit d3 && isAsciiDigit d4 then
      some (dropCloseParen rest2)
    else none
  | _ => none

/-- One attempted match, anchored at the head of `s`, of `\s*\(?\d{4}\)?`
(the year-stripping pattern of `normalize_text`).  After the greedy `\s*`, the
optional `(` is taken iff present and followed by four digits (backtracking to
the no-paren alternative cannot succeed, a parenthesis not being a digit). -/
def matchYear (s : List Char) : Option (List Char) :=
  match s.dropWhile isPySpace with
  | c :: rest =>
    if c.toNat = 40 then
      matchYearDigits rest
    else matchYearDigits (c :: rest)
  | [] => none

theorem matchYearDigits_length {s after : List Char} (h : matchYearDigits s = some after) :
    after.length < s.length := by
  match s with
  | [] => exact absurd h (by simp [matchYearDigits])
  | [a] => exact absurd h (by simp [matchYearDigits])
  | [a, b] => exact absurd h (by simp [matchYearDigits])
  | [a, b, c] => exact absurd h (by simp [matchYearDigits])
  | a :: b :: c :: d :: rest =>
    rw [matchYearDigits] at h
    split at h
    · cases h
      match rest with
      | [] => simp [dropCloseParen]
      | x :: xs =>
        rw [dropCloseParen]
        split <;> simp <;> omega
    · exact absurd h (by simp)

theorem matchYear_length {s after : List Char} (h : matchYear s = some after) :
    after.length < s.length := by
  unfold matchYear at h
  split at h
  next c cs hrest =>
    have h1 : cs.length < s.length := by
      have h2 := (List.dropWhile_suffix (l := s) isPySpace).length_le
      rw [hrest] at h2
      simp only [List.length_cons] at h2
      omega
    split at h
    · have := matchYearDigits_length h
      omega
    · have := matchYearDigits_length h
      simp only [List.length_cons] at this
      omega
  · exact absurd h (by simp)

/-- The year-stripping scan on explicit fuel (see `stripSpansF`). -/
def yearSubF : ℕ → List Char → List Char
  | 0, s => s
  | _ + 1, [] => []
  | fuel + 1, c :: cs =>
    match matchYear (c :: cs) with
    | some rest => yearSubF fuel rest
    | none => c :: yearSubF fuel cs

/-- `re.sub(r'\s*\(?\d{4}\)?', '', text)` deleting scan. -/
def yearSub (s : List Char) : List Char :=
  yearSubF s.length s

/-- `re.sub(r'[^\w\s]', '', text)`: keep word characters and whitespace. -/
def filterWordSpace (s : List Char) : List Char :=
  s.filter (fun c => isWordChar c || isPySpace c)

/-- The whitespace-collapsing scan on explicit fuel (see `stripSpansF`). -/
def collapseWsF : ℕ → List Char → List Char
  | 0, s => s
  | _ + 1, [] => []
  | fuel + 1, c :: cs =>
    if isPySpace c then ' ' :: collapseWsF fuel (cs.dropWhile isPySpace)
    else c :: collapseWsF fuel cs

/-- `re.sub(r'\s+', ' ', text)`: collapse every whitespace run to one space. -/
def collapseWs (s : List Char) : List Char :=
  collapseWsF s.length s

/-- Python `str.strip()`: drop whitespace from both ends. -/
def pyStrip (s : List Char) : List Char :=
  (s.dropWhile isPySpace).rdropWhile isPySpace

/-- The version-indicator keyword list of
`PlaylistCleaner.normalize_text` / `playlist_deduper.normalize_text`:
`remaster|mix|version|edit|live|acoustic|demo|feat|featuring|explicit|clean`. -/
def versionKeys : List (List Char) :=
  ["remaster", "mix", "version", "edit", "live", "acoustic", "demo", "feat",
    "featuring", "explicit", "clean"].map (fun s => s.toList)

/-- The smaller keyword list of `advanced_playlist_cleaner.normalize_text`
(no `explicit`, no `clean`). -/
def advVersionKeys : List (List Char) :=
  ["remaster", "mix", "version", "edit", "live", "acoustic", "demo", "feat",
    "featuring"].map (fun s => s.toList)

/-- `normalize_text` of `src/musiclib/playlist_cleaner.py:682` and
`src/playlist_deduper.py:42` (identical bodies), on `List Char`. -/
def normalizeChars (s : List Char) : List Char :=
  if s = [] then []
  else
    pyStrip ((collapseWs (filterWordSpace (yearSub
      (stripSpans versionKeys (Char.ofNat 91) (Char.ofNat 93)
        (stripSpans versionKeys (Char.ofNat 40) (Char.ofNat 41) s))))).map pyToLower)

/-- `normalize_text` on `String`. -/
def normalize_text (s : String) : String :=
  ⟨normalizeChars s.toList⟩

/-- `advanced_playlist_cleaner.normalize_text` (same pipeline, smaller keyword
vocabulary), on `List Char`. -/
def advNormalizeChars (s : List Char) : List Char :=
  if s = [] then []
  else
    pyStrip ((collapseWs (filterWordSpace (yearSub
      (stripSpans advVersionKeys (Char.ofNat 91) (Char.ofNat 93)
        (stripSpans advVersionKeys (Char.ofNat 40) (Char.ofNat 41) s))))).map pyToLower)

/-- `advanced_playlist_cleaner.normalize_text` on `String`. -/
def advNormalize_text (s : String) : String :=
  ⟨advNormalizeChars s.toList⟩

/-- Four consecutive ASCII digits occur somewhere in the string (the trigger
of the year-stripping pattern). -/
def has4Digits : List Char → Bool
  | a :: b :: c :: d :: rest =>
    (isAsciiDigit a && isAsciiDigit b && isAsciiDigit c && isAsciiDigit d) ||
      has4Digits (b :: c :: d :: rest)
  | _ => false

/-- Canonical whitespace shape produced by `collapseWs`: every whitespace
character is a plain space and no two whitespace characters are adjacent. -/
def Collapsed (l : List Char) : Prop :=
  (∀ c ∈ l, isPySpace c = true → c = ' ') ∧
    l.Chain' (fun a b => isPySpace a = false ∨ isPySpace b = false)

/-! ## Data model: playlist tracks, duration parsing, duplicate groups -/

/-- `PlaylistTrack` (`src/musiclib/playlist_cleaner.py:29`), the fields read
by the embedded engine. -/
structure PTrack where
  video_id : String
  set_video_id : String
  title : String
  artists : List String
  album : Option String
  duration : Option String
deriving DecidableEq, Repr

/-- A raw track dict as consumed by `playlist_deduper.py` (fields read by the
embedded functions; `duration` is `t.get('duration', '')` with `None`/absent
both modelled as `none`). -/
structure DTrack where
  title : String
  artists : List String
  duration : Option String
deriving DecidableEq, Repr

/-- Python truthiness of an optional string: `None` and `''` are falsy. -/
def truthyStr : Option String → Bool
  | none => false
  | some s => s ≠ ""

/-- Value of a nonempty all-digit string (helper for `pyInt`). -/
def digitsVal (l : List Char) : Option ℕ :=
  if l = [] then none
  else
    l.foldl (fun acc c =>
      match acc with
      | none => none
      | some n => if isAsciiDigit c then some (n * 10 + (c.toNat - 48)) else none)
      (some 0)

/-- Python `int(s)` on a decimal literal: optional sign then digits (ASCII
core; surrounding whitespace and digit-group underscores are not modelled).
`none` models `ValueError`. -/
def pyInt (l : List Char) : Option ℤ :=
  match l with
  | c :: rest =>
    if c.toNat = 45 then (digitsVal rest).map (fun n => -(n : ℤ))
    else if c.toNat = 43 then (digitsVal rest).map (fun n => (n : ℤ))
    else (digitsVal l).map (fun n => (n : ℤ))
  | [] => none

/-- Python `str.split(sep)` for a one-character separator. -/
def splitCh (sep : Char) : List Char → List (List Char)
  | [] => [[]]
  | c :: cs =>
    if c = sep then [] :: splitCh sep cs
    else
      match splitCh sep cs with
      | [] => [[c]]
      | g :: gs => (c :: g) :: gs

/-- `_parse_duration` (`src/musiclib/playlist_cleaner.py:1002` and
`src/playlist_deduper.py:125`, identical): `H:MM:SS` / `M:SS` to seconds;
`0` for absent, colon-free, wrongly shaped, or non-integer parts (the
`except` path).  Python `int` may be negative, hence `ℤ`. -/
def parse_duration (d : Option String) : ℤ :=
  match d with
  | none => 0
  | some s =>
    if s = "" then 0
    else if ¬ (Char.ofNat 58) ∈ s.toList then 0
    else
      match splitCh (Char.ofNat 58) s.toList with
      | [p0, p1] =>
        match pyInt p0, pyInt p1 with
        | some a, some b => a * 60 + b
        | _, _ => 0
      | [p0, p1, p2] =>
        match pyInt p0, pyInt p1, pyInt p2 with
        | some a, some b, some c => a * 3600 + b * 60 + c
        | _, _, _ => 0
      | _ => 0

/-- `_calculate_duplicate_confidence` (`src/musiclib/playlist_cleaner.py:953`)
and the identical `PlaylistDuplicate._calculate_confidence`
(`src/playlist_deduper.py:94`): confidence from group size. -/
def calcDuplicateConfidence (count : ℕ) : ℚ :=
  if count = 2 then mkRat 9 10
  else if count ≤ 5 then mkRat 7 10
  else mkRat 1 2

/-- Python `max` over a nonempty integer list (callers guard nonemptiness). -/
def listMax : List ℤ → ℤ
  | [] => 0
  | x :: xs => xs.foldl max x

/-- Python `min` over a nonempty integer list (callers guard nonemptiness). -/
def listMin : List ℤ → ℤ
  | [] => 0
  | x :: xs => xs.foldl min x

/-- The shared duration-variance test: `max_dur > 0 and
(max_dur - min_dur) / max_dur > 0.2`, in exact arithmetic
(`(maxd - mind) / maxd > 1/5  ↔  5 * (maxd - mind) > maxd` for `maxd > 0`). -/
def durationVariance (durations : List ℤ) : Bool :=
  if durations.length > 1 then
    let maxd := listMax durations
    let mind := listMin durations
    if maxd > 0 ∧ 5 * (maxd - mind) > maxd then true else false
  else false

/-- `PlaylistCleaner._duplicate_needs_review`
(`src/musiclib/playlist_cleaner.py:963`).  Its duration list is
`[parse(t.duration) for t in tracks if t.duration]`: every *truthy* duration
string is kept — including those whose parse fails and yields `0`. -/
def cleanerNeedsReview (tracks : List PTrack) : Bool :=
  if calcDuplicateConfidence tracks.length < mkRat 4 5 then true
  else if tracks.length > 3 then true
  else
    durationVariance
      ((tracks.filter (fun t => truthyStr t.duration)).map
        (fun t => parse_duration t.duration))

/-- `PlaylistDuplicate._needs_review` (`src/playlist_deduper.py:103`).  Its
duration list parses every track's duration and then keeps only positive
results, so absent and unparsable durations are both excluded. -/
def deduperNeedsReview (tracks : List DTrack) : Bool :=
  if calcDuplicateConfidence tracks.length < mkRat 4 5 then true
  else if tracks.length > 3 then true
  else
    durationVariance
      ((tracks.map (fun t => parse_duration t.duration)).filter (fun d => d > 0))

/-- `_track_preference_score` (`src/musiclib/playlist_cleaner.py:85` and
`src/playlist_deduper.py:153`, identical): lexicographic preference tuple on
the lowercased title; the float `len(title)/100` component is order-isomorphic
to `len(title)` and is modelled so. -/
def trackPreferenceScore (title : String) : ℕ × ℕ × ℕ × ℕ :=
  let t := title.toList.map pyToLower
  (if ["live", "concert", "tour"].any (fun w => decide (w.toList <:+: t)) then 1 else 0,
   if ["remix", "alternate", "demo", "acoustic"].any (fun w => decide (w.toList <:+: t))
     then 1 else 0,
   if decide ("explicit".toList <:+: t) then 1 else 0,
   t.length)

/-- Lexicographic `≤` on Python's 4-tuples. -/
def tupleLeB (a b : ℕ × ℕ × ℕ × ℕ) : Bool :=
  a.1 < b.1 || (a.1 = b.1 && (a.2.1 < b.2.1 || (a.2.1 = b.2.1 &&
    (a.2.2.1 < b.2.2.1 || (a.2.2.1 = b.2.2.1 && a.2.2.2 ≤ b.2.2.2)))))

/-- `_decide_which_to_keep` (`src/musiclib/playlist_cleaner.py:71` and
`src/playlist_deduper.py:141`, identical logic): stable sort by preference
score, keep the first, remove the rest; empty input keeps both lists empty. -/
def decideWhichToKeepBy {α : Type} (title : α → String) (tracks : List α) :
    List α × List α :=
  if tracks.isEmpty then ([], [])
  else
    match List.insertionSort
        (fun a b => tupleLeB (trackPreferenceScore (title a)) (trackPreferenceScore (title b)) = true)
        tracks with
    | [] => ([], [])
    | k :: rest => ([k], rest)

/-- `DuplicateGroup._decide_which_to_keep` on `PlaylistTrack`s. -/
def decideWhichToKeep (tracks : List PTrack) : List PTrack × List PTrack :=
  decideWhichToKeepBy (fun t => t.title) tracks

/-- `PlaylistDuplicate._decide_which_to_keep` on raw track dicts. -/
def deduperDecideWhichToKeep (tracks : List DTrack) : List DTrack × List DTrack :=
  decideWhichToKeepBy (fun t => t.title) tracks

/-- `create_track_signature` (`src/musiclib/playlist_cleaner.py:904`):
`f"{normalize(title)}|{normalize(' '.join(artists))}"`. -/
def createTrackSignature (t : PTrack) : List Char :=
  normalizeChars t.title.toList ++
    (Char.ofNat 124) :: normalizeChars (String.intercalate " " t.artists).toList

/-- dict-of-lists append: `d[k].append(v)`, creating the key at the end when
missing (`defaultdict` / `setdefault` with dict insertion order). -/
def appendToBucket {α : Type _} [DecidableEq α] {β : Type _} (k : α) (v : β) :
    List (α × List β) → List (α × List β)
  | [] => [(k, [v])]
  | p :: rest =>
    if p.1 = k then (p.1, p.2 ++ [v]) :: rest else p :: appendToBucket k v rest

/-- dict lookup. -/
def lookupKey {α : Type _} [DecidableEq α] {β : Type _} (k : α) :
    List (α × β) → Option β
  | [] => none
  | p :: rest => if p.1 = k then some p.2 else lookupKey k rest

/-- The signature grouping loop of `find_playlist_internal_duplicates`
(`src/musiclib/playlist_cleaner.py:916`): group tracks by signature, skipping
falsy (empty) signatures. -/
def signatureGroups (tracks : List PTrack) : List (List Char × List PTrack) :=
  tracks.foldl (fun gs t =>
    let sig := createTrackSignature t
    if sig ≠ [] then appendToBucket sig t gs else gs) []

/-- `DuplicateGroup` (`src/musiclib/playlist_cleaner.py:55`), as constructed
by `find_playlist_internal_duplicates`. -/
structure DupGroup where
  signature : List Char
  tracks : List PTrack
  duplicate_count : ℕ
  tracks_to_keep : List PTrack
  tracks_to_remove : List PTrack
  confidence : ℚ
  review_needed : Bool
deriving DecidableEq, Repr

/-- `find_playlist_internal_duplicates` (`src/musiclib/playlist_cleaner.py:910`):
signature groups with more than one member become `DuplicateGroup`s (the
`__post_init__` keeper selection included). -/
def findPlaylistInternalDuplicates (playlist_tracks : List PTrack) : List DupGroup :=
  (signatureGroups playlist_tracks).filterMap (fun sg =>
    if sg.2.length > 1 then
      some { signature := sg.1, tracks := sg.2, duplicate_count := sg.2.length,
             tracks_to_keep := (decideWhichToKeep sg.2).1,
             tracks_to_remove := (decideWhichToKeep sg.2).2,
             confidence := calcDuplicateConfidence sg.2.length,
             review_needed := cleanerNeedsReview sg.2 }
    else none)

/-! ## `memory_efficient_comparison` (`src/performance_optimization.py`) -/

/-- The fields of the `musiclib` `Track` objects read by
`memory_efficient_comparison` (`album` and `duration` are carried by tracks
but never read by this function). -/
structure MTrack where
  isrc : Option String
  normalized_title : String
  normalized_artist : String
  album : Option String
  duration : Option ℕ
deriving DecidableEq, Repr

/-- Python `s.lower()` (ASCII model). -/
def pyLowerStr (s : String) : String :=
  ⟨s.toList.map pyToLower⟩

/-- dict assignment `d[k] = v`: overwrite an existing key, else append. -/
def insertOverwrite {β : Type _} (k : String) (v : β) :
    List (String × β) → List (String × β)
  | [] => [(k, v)]
  | p :: rest =>
    if p.1 = k then (p.1, v) :: rest else p :: insertOverwrite k v rest

/-- One step of the `target_by_isrc` index construction: for a target with a
truthy `isrc`, `d[isrc.lower()] = track`. -/
def isrcStep (idx : List (String × MTrack)) (t : MTrack) : List (String × MTrack) :=
  match t.isrc with
  | some s => if s ≠ "" then insertOverwrite (pyLowerStr s) t idx else idx
  | none => idx

/-- `target_by_isrc`: for every target with truthy `isrc`,
`d[isrc.lower()] = track` (last one wins). -/
def buildIsrcIndex (ts : List MTrack) : List (String × MTrack) :=
  ts.foldl isrcStep []

/-- `target_by_normalized`: buckets keyed by the
`(normalized_title, normalized_artist)` tuple, in insertion order. -/
def buildNormIndex (ts : List MTrack) : List ((String × String) × List MTrack) :=
  ts.foldl (fun idx t =>
    appendToBucket (t.normalized_title, t.normalized_artist) t idx) []

/-- `PerformanceOptimizer.build_artist_index`: buckets keyed by
`normalized_artist.lower()`. -/
def buildArtistIndex (ts : List MTrack) : List (String × List MTrack) :=
  ts.foldl (fun idx t => appendToBucket (pyLowerStr t.normalized_artist) t idx) []

/-- Stages 3–4 of the per-track loop of `memory_efficient_comparison`: fuzzy
match against the shared-artist pool, then against the first
`min(5000, len(targets))` targets.  `fuzzy` is the external
`matcher.find_best_match`. -/
def memMatchFuzzy (fuzzy : MTrack → List MTrack → Option (MTrack × ℚ))
    (targets : List MTrack) (src : MTrack) : Option (MTrack × ℚ × String) :=
  let artistCandidates :=
    (lookupKey (pyLowerStr src.normalized_artist) (buildArtistIndex targets)).getD []
  match (if ¬ artistCandidates.isEmpty then fuzzy src artistCandidates else none) with
  | some (m, conf) => some (m, conf, "fuzzy")
  | none =>
    match fuzzy src (targets.take (min 5000 targets.length)) with
    | some (m, conf) => some (m, conf, "fuzzy")
    | none => none

/-- Stage 2 (exact normalized tuple, flat confidence `0.95`, first bucket
entry) then stages 3–4.  The `some []` branch is unreachable: index buckets
are nonempty by construction. -/
def memMatchExact (fuzzy : MTrack → List MTrack → Option (MTrack × ℚ))
    (targets : List MTrack) (src : MTrack) : Option (MTrack × ℚ × String) :=
  match lookupKey (src.normalized_title, src.normalized_artist) (buildNormIndex targets) with
  | some (m :: _) => some (m, mkRat 95 100, "exact")
  | some [] => memMatchFuzzy fuzzy targets src
  | none => memMatchFuzzy fuzzy targets src

/-- The full per-source-track cascade of `memory_efficient_comparison`
(`src/performance_optimization.py:146`): ISRC (confidence `1.0`, terminates) →
exact normalized (`0.95`) → fuzzy stages; `none` models `missing`. -/
def memMatchSource (fuzzy : MTrack → List MTrack → Option (MTrack × ℚ))
    (targets : List MTrack) (src : MTrack) : Option (MTrack × ℚ × String) :=
  match src.isrc with
  | some s =>
    if s ≠ "" then
      match lookupKey (pyLowerStr s) (buildIsrcIndex targets) with
      | some m => some (m, 1, "isrc")
      | none => memMatchExact fuzzy targets src
    else memMatchExact fuzzy targets src
  | none => memMatchExact fuzzy targets src

/-! ## `find_library_duplicates_with_similarity`
(`src/musiclib/playlist_cleaner.py:701`) -/

/-- A library song dict as read by `find_library_duplicates_with_similarity`:
`videoId`, `title`, artist names (a `None`/empty name is filtered by the
`if a.get('name')` comprehension guard, modelled as `≠ ""`). -/
structure LibTrack where
  videoId : Option String
  title : String
  artists : List String
deriving DecidableEq, Repr

/-- `library_video_ids`: the truthy `videoId`s. -/
def libraryVideoIds (lib : List LibTrack) : List String :=
  lib.filterMap (fun t =>
    match t.videoId with
    | some v => if v ≠ "" then some v else none
    | none => none)

/-- `library_normalized`: for every library track with nonempty normalized
title and nonempty artist list, one bucket entry per artist under the key
`f"{title}|{artist_norm}"`. -/
def libraryNormalized (lib : List LibTrack) : List (List Char × List LibTrack) :=
  lib.foldl (fun idx t =>
    let title := normalizeChars t.title.toList
    let artists := t.artists.filter (fun a => a ≠ "")
    if ¬ title.isEmpty ∧ ¬ artists.isEmpty then
      artists.foldl (fun idx2 artist =>
        appendToBucket (title ++ (Char.ofNat 124) :: normalizeChars artist.toList) t idx2)
        idx
    else idx) []

/-- One candidate collected for a playlist track: a library track and its
similarity (`1.0` for an exact normalized hit). -/
structure SimEntry where
  library_track : LibTrack
  similarity : ℚ
deriving DecidableEq, Repr

/-- One entry of the `matches` list produced by
`find_library_duplicates_with_similarity` (for the `exact_video_id` branch the
code stores a raw videoId dict rather than library tracks; that payload is
modelled as `[]`, its content being unused by the engine). -/
structure LibMatch where
  playlist_track : PTrack
  match_type : String
  confidence : ℚ
  library_matches : List SimEntry
deriving DecidableEq, Repr

/-- The candidates collected for one playlist artist inside the similarity
strategy: a direct index hit contributes every bucket track at similarity
`1.0`; otherwise every index key with `sim ≥ threshold` contributes its bucket
at that similarity. -/
def candidatesForArtist (sim : List Char → List Char → ℚ) (threshold : ℚ)
    (idx : List (List Char × List LibTrack)) (key : List Char) : List SimEntry :=
  match lookupKey key idx with
  | some bucket => bucket.map (fun t => ⟨t, 1⟩)
  | none =>
    idx.foldl (fun acc2 kb =>
      if sim key kb.1 ≥ threshold then acc2 ++ kb.2.map (fun t => ⟨t, sim key kb.1⟩)
      else acc2) []

/-- The per-track body of the matching loop of
`find_library_duplicates_with_similarity`: exact video-id strategy, then
similarity strategy (direct lookup per artist, else fuzzy scan of all index
keys at `sim ≥ threshold`); `none` when the track yields no `matches` entry.
`sim` is the external `SequenceMatcher.ratio` on the two keys. -/
def matchOneTrack (sim : List Char → List Char → ℚ) (threshold : ℚ)
    (lib : List LibTrack) (p : PTrack) : Option LibMatch :=
  if p.video_id ≠ "" ∧ p.video_id ∈ libraryVideoIds lib then
    some { playlist_track := p, match_type := "exact_video_id", confidence := 1,
           library_matches := [] }
  else
    let ptitle := normalizeChars p.title.toList
    if ptitle.isEmpty || p.artists.isEmpty then none
    else
      let idx := libraryNormalized lib
      let best := p.artists.foldl (fun acc artist =>
        acc ++ candidatesForArtist sim threshold idx
          (ptitle ++ (Char.ofNat 124) :: normalizeChars artist.toList)) []
      match List.insertionSort (fun a b : SimEntry => b.similarity ≤ a.similarity) best with
      | top1 :: rest =>
        some { playlist_track := p, match_type := "similarity",
               confidence := top1.similarity * mkRat 9 10,
               library_matches := (top1 :: rest).take 3 }
      | [] => none

/-- The `matches` list of `find_library_duplicates_with_similarity`. -/
def findLibraryDuplicatesWithSimilarity (sim : List Char → List Char → ℚ)
    (threshold : ℚ) (lib : List LibTrack) (pts : List PTrack) : List LibMatch :=
  pts.filterMap (matchOneTrack sim threshold lib)

/-- The `high_confidence` partition (`confidence >= 0.95`) of the result;
`clean_playlist_with_similarity` auto-removes exactly the playlist tracks
whose video id appears in this partition. -/
def highConfidenceMatches (sim : List Char → List Char → ℚ) (threshold : ℚ)
    (lib : List LibTrack) (pts : List PTrack) : List LibMatch :=
  (findLibraryDuplicatesWithSimilarity sim threshold lib pts).filter
    (fun m => m.confidence ≥ mkRat 95 100)

/-! ## `YouTubeMusicDeduplicator.find_duplicates`
(`src/ytm-dedup-main/youtube_music_deduplicator.py:71`) -/

/-- The group collected for anchor `i`: `i` itself plus every later index `j`
not yet processed that passes the duplicate test (`title_sim ≥ threshold and
artist_sim ≥ threshold`, computed via `SequenceMatcher`; the test is the
parameter `isDup`). -/
def anchorGroup (isDup : ℕ → ℕ → Bool) (processed : List ℕ) (i n : ℕ) : List ℕ :=
  i :: (List.range n).filter (fun j => i < j && (j ∉ processed : Bool) && isDup i j)

/-- The anchor loop of `find_duplicates`: anchors already processed are
skipped; a group is emitted (and its indices marked processed) only when it
has more than one member.  Groups are recorded by index into the library
list (`rank_duplicates` only permutes a group's members). -/
def findDupGo (isDup : ℕ → ℕ → Bool) (n : ℕ) :
    List ℕ → List ℕ → List (List ℕ)
  | [], _ => []
  | i :: rest, processed =>
    if i ∈ processed then findDupGo isDup n rest processed
    else
      let g := anchorGroup isDup processed i n
      if g.length > 1 then g :: findDupGo isDup n rest (processed ++ g)
      else findDupGo isDup n rest processed

/-- `find_duplicates` over a library of `n` songs. -/
def findDuplicates (isDup : ℕ → ℕ → Bool) (n : ℕ) : List (List ℕ) :=
  findDupGo isDup n (List.range n) []

/-! ## Concrete instances used by counterexamples and witnesses -/

/-- A playlist track with a parsable duration `3:00`. -/
def trackA : PTrack :=
  ⟨"v1", "s1", "Song A", ["Artist"], none, some "3:00"⟩

/-- Same song, but its duration string `"abc"` fails to parse. -/
def trackB : PTrack :=
  ⟨"v2", "s2", "Song A", ["Artist"], none, some "abc"⟩

/-- Same song with an absent duration. -/
def trackBAbsent : PTrack :=
  ⟨"v2", "s2", "Song A", ["Artist"], none, none⟩

/-- A second parsable near-identical duration. -/
def trackA2 : PTrack :=
  ⟨"v2", "s2", "Song A", ["Artist"], none, some "3:01"⟩

/-- A track whose title normalizes to `""` and with no artists. -/
def trackBang1 : PTrack :=
  ⟨"v1", "s1", "!!!", [], none, none⟩

/-- A second such track. -/
def trackBang2 : PTrack :=
  ⟨"v2", "s2", "!!!", [], none, none⟩

/-- A library song holding video id `v1`. -/
def libV1 : LibTrack :=
  ⟨some "v1", "Anything", ["X"]⟩

/-- A library song for the similarity-match witness. -/
def libSong : LibTrack :=
  ⟨some "w", "Song", ["Art"]⟩

/-- A playlist track matching `libSong` by normalized title and artist. -/
def ptSong : PTrack :=
  ⟨"vZ", "s", "Song", ["Art"], none, none⟩

/-- A source track carrying an ISRC but a title and artist disagreeing with
every target. -/
def mSrc : MTrack :=
  ⟨some "GBUM71029601", "bohemian rhapsody", "queen", some "A Night at the Opera",
    some 354⟩

/-- A target sharing `mSrc`'s ISRC up to case, with an entirely different
title, artist, album and duration. -/
def mTgtIsrc : MTrack :=
  ⟨some "gbum71029601", "totally different", "nobody", some "Elsewhere", some 100⟩

/-- A target agreeing with `mSrc2` on the normalized tuple, album and
duration. -/
def mTgtExact : MTrack :=
  ⟨none, "yesterday", "the beatles", some "Help!", some 125⟩

/-- A source with no ISRC whose normalized tuple, album and duration all
coincide with `mTgtExact`'s. -/
def mSrc2 : MTrack :=
  ⟨none, "yesterday", "the beatles", some "Help!", some 125⟩

/-- Like `mSrc2` but album and duration differ from `mTgtExact`'s. -/
def mSrc3 : MTrack :=
  ⟨none, "yesterday", "the beatles", some "1", some 999⟩

/-- A fuzzy matcher that never matches (for closed evaluations). -/
def noFuzzy : MTrack → List MTrack → Option (MTrack × ℚ) :=
  fun _ _ => none

/-- A constant similarity function (for closed evaluations). -/
def constSim : List Char → List Char → ℚ :=
  fun _ _ => 1 / 2

/-! ## Lemmas: fuel irrelevance and one-step unfolding of the scans -/

theorem stripSpansF_fuel (keys : List (List Char)) (op cl : Char) :
    ∀ (f1 f2 : ℕ) (s : List Char), s.length ≤ f1 → s.length ≤ f2 →
      stripSpansF keys op cl f1 s = stripSpansF keys op cl f2 s := by
  intro f1
  induction f1 with
  | zero =>
    intro f2 s h1 h2
    have hs : s = [] := List.length_eq_zero.mp (Nat.le_zero.mp h1)
    subst hs
    cases f2 <;> rfl
  | succ f1 ih =>
    intro f2 s h1 h2
    cases s with
    | nil => cases f2 <;> rfl
    | cons c cs =>
      cases f2 with
      | zero => simp at h2
      | succ g =>
        simp only [stripSpansF]
        rcases hm : matchSpan keys op cl (c :: cs) with _ | rest
        · dsimp only
          simp only [List.length_cons] at h1 h2
          rw [ih g cs (by omega) (by omega)]
        · dsimp only
          have hr := matchSpan_length hm
          simp only [List.length_cons] at h1 h2 hr
          rw [ih g rest (by omega) (by omega)]

theorem stripSpans_cons_match {keys : List (List Char)} {op cl : Char} {c : Char}
    {cs rest : List Char} (h : matchSpan keys op cl (c :: cs) = some rest) :
    stripSpans keys op cl (c :: cs) = stripSpans keys op cl rest := by
  have hr := matchSpan_length h
  simp only [List.length_cons] at hr
  rw [stripSpans, stripSpans, List.length_cons, stripSpansF, h]
  exact stripSpansF_fuel keys op cl cs.length rest.length rest (by omega) le_rfl

theorem stripSpans_cons_none {keys : List (List Char)} {op cl : Char} {c : Char}
    {cs : List Char} (h : matchSpan keys op cl (c :: cs) = none) :
    stripSpans keys op cl (c :: cs) = c :: stripSpans keys op cl cs := by
  rw [stripSpans, stripSpans, List.length_cons, stripSpansF, h]

theorem yearSubF_fuel :
    ∀ (f1 f2 : ℕ) (s : List Char), s.length ≤ f1 → s.length ≤ f2 →
      yearSubF f1 s = yearSubF f2 s := by
  intro f1
  induction f1 with
  | zero =>
    intro f2 s h1 h2
    have hs : s = [] := List.length_eq_zero.mp (Nat.le_zero.mp h1)
    subst hs
    cases f2 <;> rfl
  | succ f1 ih =>
    intro f2 s h1 h2
    cases s with
    | nil => cases f2 <;> rfl
    | cons c cs =>
      cases f2 with
      | zero => simp at h2
      | succ g =>
        simp only [yearSubF]
        rcases hm : matchYear (c :: cs) with _ | rest
        · dsimp only
          simp only [List.length_cons] at h1 h2
          rw [ih g cs (by omega) (by omega)]
        · dsimp only
          have hr := matchYear_length hm
          simp only [List.length_cons] at h1 h2 hr
          rw [ih g rest (by omega) (by omega)]

theorem yearSub_cons_match {c : Char} {cs rest : List Char}
    (h : matchYear (c :: cs) = some rest) :
    yearSub (c :: cs) = yearSub rest := by
  have hr := matchYear_length h
  simp only [List.length_cons] at hr
  rw [yearSub, yearSub, List.length_cons, yearSubF, h]
  exact yearSubF_fuel cs.length rest.length rest (by omega) le_rfl

theorem yearSub_cons_none {c : Char} {cs : List Char} (h : matchYear (c :: cs) = none) :
    yearSub (c :: cs) = c :: yearSub cs := by
  rw [yearSub, yearSub, List.length_cons, yearSubF, h]

theorem collapseWsF_fuel :
    ∀ (f1 f2 : ℕ) (s : List Char), s.length ≤ f1 → s.length ≤ f2 →
      collapseWsF f1 s = collapseWsF f2 s := by
  intro f1
  induction f1 with
  | zero =>
    intro f2 s h1 h2
    have hs : s = [] := List.length_eq_zero.mp (Nat.le_zero.mp h1)
    subst hs
    cases f2 <;> rfl
  | succ f1 ih =>
    intro f2 s h1 h2
    cases s with
    | nil => cases f2 <;> rfl
    | cons c cs =>
      cases f2 with
      | zero => simp at h2
      | succ g =>
        simp only [collapseWsF]
        have hd := (List.dropWhile_suffix (l := cs) isPySpace).length_le
        simp only [List.length_cons] at h1 h2
        rw [ih g (cs.dropWhile isPySpace) (by omega) (by omega), ih g cs (by omega) (by omega)]

theorem collapseWs_cons_space {c : Char} {cs : List Char} (h : isPySpace c = true) :
    collapseWs (c :: cs) = ' ' :: collapseWs (cs.dropWhile isPySpace) := by
  have hd := (List.dropWhile_suffix (l := cs) isPySpace).length_le
  rw [collapseWs, collapseWs, List.length_cons, collapseWsF, if_pos h]
  rw [collapseWsF_fuel cs.length (cs.dropWhile isPySpace).length (cs.dropWhile isPySpace)
    hd le_rfl]

theorem collapseWs_cons_nospace {c : Char} {cs : List Char} (h : isPySpace c = false) :
    collapseWs (c :: cs) = c :: collapseWs cs := by
  rw [collapseWs, collapseWs, List.length_cons, collapseWsF]
  rw [if_neg (by simp [h])]

/-! ## Lemmas: when the scans leave the string unchanged -/

theorem dropWhile_head_false {p : Char → Bool} {l : List Char} {x : Char}
    {xs : List Char} (h : l.dropWhile p = x :: xs) : p x = false := by
  induction l with
  | nil => simp at h
  | cons a as ih =>
    rw [List.dropWhile_cons] at h
    split at h
    · exact ih h
    · cases h
      simp_all

theorem mem_of_mem_dropWhile {p : Char → Bool} {c : Char} {l : List Char}
    (h : c ∈ l.dropWhile p) : c ∈ l :=
  (List.dropWhile_suffix p).subset h

theorem matchSpan_eq_none_of_not_mem {keys : List (List Char)} {op cl : Char}
    {s : List Char} (h : op ∉ s) : matchSpan keys op cl s = none := by
  unfold matchSpan
  split
  · rfl
  next c cs hrest =>
    have hc : c ∈ s := by
      have : c ∈ s.dropWhile isPySpace := by rw [hrest]; exact List.mem_cons_self c cs
      exact mem_of_mem_dropWhile this
    rw [if_neg (show ¬ c = op from fun hop => h (hop ▸ hc))]

theorem stripSpans_eq_self {keys : List (List Char)} {op cl : Char} {s : List Char}
    (h : op ∉ s) : stripSpans keys op cl s = s := by
  induction s with
  | nil => rfl
  | cons c cs ih =>
    rw [stripSpans_cons_none (matchSpan_eq_none_of_not_mem h)]
    rw [ih (fun hm => h (List.mem_cons_of_mem c hm))]

theorem matchSpan_cons_eq_none {keys : List (List Char)} {op cl : Char} {c : Char}
    {cs : List Char} (h1 : isPySpace c = false) (h2 : c ≠ op) :
    matchSpan keys op cl (c :: cs) = none := by
  unfold matchSpan
  rw [List.dropWhile_cons, if_neg (by simp [h1])]
  exact if_neg h2

theorem stripSpans_append_safe {keys : List (List Char)} {op cl : Char}
    {X T : List Char} (h : ∀ c ∈ X, isPySpace c = false ∧ c ≠ op) :
    stripSpans keys op cl (X ++ T) = X ++ stripSpans keys op cl T := by
  induction X with
  | nil => rfl
  | cons x xs ih =>
    have hx := h x (List.mem_cons_self x xs)
    rw [List.cons_append, stripSpans_cons_none (matchSpan_cons_eq_none hx.1 hx.2)]
    rw [ih (fun c hc => h c (List.mem_cons_of_mem x hc))]
    rfl

theorem has4Digits_tail {c : Char} {cs : List Char} (h : has4Digits (c :: cs) = false) :
    has4Digits cs = false := by
  match cs with
  | [] => rfl
  | [a] => rfl
  | [a, b] => rfl
  | a :: b :: d :: rest =>
    rw [has4Digits] at h
    simp only [Bool.or_eq_false_iff] at h
    exact h.2

theorem has4Digits_suffix {t s : List Char} (hsuf : t <:+ s)
    (h : has4Digits s = false) : has4Digits t = false := by
  obtain ⟨u, hu⟩ := hsuf
  induction u generalizing s with
  | nil =>
    rw [List.nil_append] at hu
    rw [hu]
    exact h
  | cons a as ih =>
    rw [← hu, List.cons_append] at h
    exact ih (s := as ++ t) (has4Digits_tail h) rfl

theorem matchYearDigits_eq_none {s : List Char} (h : has4Digits s = false) :
    matchYearDigits s = none := by
  match s with
  | [] => rfl
  | [a] => rfl
  | [a, b] => rfl
  | [a, b, c] => rfl
  | a :: b :: c :: d :: rest =>
    rw [has4Digits] at h
    simp only [Bool.or_eq_false_iff] at h
    rw [matchYearDigits, if_neg (by simp [h.1])]

theorem matchYear_eq_none {s : List Char} (h : has4Digits s = false) :
    matchYear s = none := by
  unfold matchYear
  split
  next c cs hrest =>
    have hd : has4Digits (c :: cs) = false :=
      has4Digits_suffix (hrest ▸ List.dropWhile_suffix isPySpace) h
    split
    · exact matchYearDigits_eq_none (has4Digits_tail hd)
    · exact matchYearDigits_eq_none hd
  · rfl

theorem yearSub_eq_self {s : List Char} (h : has4Digits s = false) : yearSub s = s := by
  induction s with
  | nil => rfl
  | cons c cs ih =>
    rw [yearSub_cons_none (matchYear_eq_none h), ih (has4Digits_tail h)]

theorem has4Digits_eq_false_of_no_digit {s : List Char}
    (h : ∀ c ∈ s, isAsciiDigit c = false) : has4Digits s = false := by
  match s with
  | [] => rfl
  | [a] => rfl
  | [a, b] => rfl
  | [a, b, c] => rfl
  | a :: b :: c :: d :: rest =>
    rw [has4Digits]
    simp only [Bool.or_eq_false_iff]
    constructor
    · simp [h a (by simp)]
    · exact has4Digits_eq_false_of_no_digit (fun x hx => h x (List.mem_cons_of_mem a hx))

theorem filterWordSpace_eq_self {s : List Char}
    (h : ∀ c ∈ s, isWordChar c || isPySpace c) : filterWordSpace s = s :=
  List.filter_eq_self.mpr h

/-! ## Lemmas: whitespace collapsing and stripping -/

theorem collapseWsF_collapsed :
    ∀ (fuel : ℕ) (s : List Char), s.length ≤ fuel → Collapsed (collapseWsF fuel s) := by
  intro fuel
  induction fuel with
  | zero =>
    intro s h
    have hs : s = [] := List.length_eq_zero.mp (Nat.le_zero.mp h)
    subst hs
    exact ⟨fun c hc => absurd hc (List.not_mem_nil c), List.chain'_nil⟩
  | succ fuel ih =>
    intro s h
    cases s with
    | nil => exact ⟨fun c hc => absurd hc (List.not_mem_nil c), List.chain'_nil⟩
    | cons c cs =>
      simp only [List.length_cons] at h
      rw [collapseWsF]
      split
      · have hd := (List.dropWhile_suffix (l := cs) isPySpace).length_le
        have hC := ih (cs.dropWhile isPySpace) (by omega)
        constructor
        · intro x hx hsp
          rcases List.mem_cons.mp hx with rfl | hx'
          · rfl
          · exact hC.1 x hx' hsp
        · rw [List.chain'_cons']
          refine ⟨?_, hC.2⟩
          intro b hb
          rcases hX : collapseWsF fuel (cs.dropWhile isPySpace) with _ | ⟨x, xs⟩
          · rw [hX] at hb; simp at hb
          · rw [hX] at hb
            simp only [List.head?_cons, Option.mem_some_iff] at hb
            subst hb
            right
            cases fuel with
            | zero =>
              have hnil : cs.dropWhile isPySpace = [] :=
                List.length_eq_zero.mp (Nat.le_zero.mp (by omega))
              rw [hnil, show collapseWsF 0 ([] : List Char) = [] from rfl] at hX
              exact absurd hX (by simp)
            | succ g =>
              rcases hY : cs.dropWhile isPySpace with _ | ⟨y, ys⟩
              · rw [hY, show collapseWsF (g + 1) ([] : List Char) = [] from rfl] at hX
                exact absurd hX (by simp)
              · have hy : isPySpace y = false := dropWhile_head_false hY
                rw [hY, collapseWsF, if_neg (by simp [hy])] at hX
                cases hX
                exact hy
      · next hcsp =>
        have hc : isPySpace c = false := by
          cases hcv : isPySpace c
          · rfl
          · exact absurd hcv hcsp
        have hC := ih cs (by omega)
        constructor
        · intro x hx hsp
          rcases List.mem_cons.mp hx with rfl | hx'
          · rw [hc] at hsp; cases hsp
          · exact hC.1 x hx' hsp
        · rw [List.chain'_cons']
          exact ⟨fun b _ => Or.inl hc, hC.2⟩

theorem collapsed_collapseWs (s : List Char) : Collapsed (collapseWs s) :=
  collapseWsF_collapsed s.length s le_rfl

theorem collapseWs_eq_self {l : List Char} (h : Collapsed l) : collapseWs l = l := by
  induction l with
  | nil => rfl
  | cons c cs ih =>
    cases hc : isPySpace c with
    | false =>
      rw [collapseWs_cons_nospace hc, ih ⟨fun x hx => h.1 x (List.mem_cons_of_mem c hx),
        h.2.tail⟩]
    | true =>
      have hceq : c = ' ' := h.1 c (List.mem_cons_self c cs) hc
      have hdrop : cs.dropWhile isPySpace = cs := by
        cases cs with
        | nil => rfl
        | cons d ds =>
          have hR := List.chain'_cons.mp h.2
          rcases hR.1 with hcf | hdf
          · rw [hc] at hcf; cases hcf
          · rw [List.dropWhile_cons, if_neg (by simp [hdf])]
      rw [collapseWs_cons_space hc, hdrop, ih ⟨fun x hx => h.1 x (List.mem_cons_of_mem c hx),
        h.2.tail⟩, hceq]

theorem mem_collapseWsF :
    ∀ (fuel : ℕ) (s : List Char) (c : Char), s.length ≤ fuel →
      c ∈ collapseWsF fuel s → c = ' ' ∨ (c ∈ s ∧ isPySpace c = false) := by
  intro fuel
  induction fuel with
  | zero =>
    intro s c h hc
    have hs : s = [] := List.length_eq_zero.mp (Nat.le_zero.mp h)
    subst hs
    simp [collapseWsF] at hc
  | succ fuel ih =>
    intro s c h hc
    cases s with
    | nil => simp [collapseWsF] at hc
    | cons a as =>
      simp only [List.length_cons] at h
      rw [collapseWsF] at hc
      split at hc
      · rcases List.mem_cons.mp hc with rfl | hc'
        · exact Or.inl rfl
        · have hd := (List.dropWhile_suffix (l := as) isPySpace).length_le
          rcases ih (as.dropWhile isPySpace) c (by omega) hc' with h1 | ⟨h2, h3⟩
          · exact Or.inl h1
          · exact Or.inr ⟨List.mem_cons_of_mem a (mem_of_mem_dropWhile h2), h3⟩
      · next haf =>
        have ha : isPySpace a = false := by
          cases hv : isPySpace a
          · rfl
          · exact absurd hv haf
        rcases List.mem_cons.mp hc with rfl | hc'
        · exact Or.inr ⟨List.mem_cons_self _ _, ha⟩
        · rcases ih as c (by omega) hc' with h1 | ⟨h2, h3⟩
          · exact Or.inl h1
          · exact Or.inr ⟨List.mem_cons_of_mem a h2, h3⟩

theorem mem_collapseWs {s : List Char} {c : Char} (h : c ∈ collapseWs s) :
    c = ' ' ∨ (c ∈ s ∧ isPySpace c = false) :=
  mem_collapseWsF s.length s c le_rfl h

theorem pyStrip_part (l : List Char) : pyStrip l <:+: l := by
  have h1 : l.takeWhile isPySpace ++ l.dropWhile isPySpace = l :=
    List.takeWhile_append_dropWhile isPySpace l
  obtain ⟨u, hu⟩ := List.rdropWhile_prefix (l := l.dropWhile isPySpace) (p := isPySpace)
  refine ⟨l.takeWhile isPySpace, u, ?_⟩
  rw [pyStrip, List.append_assoc, hu, h1]

theorem mem_pyStrip {l : List Char} {c : Char} (h : c ∈ pyStrip l) : c ∈ l :=
  (pyStrip_part l).subset h

theorem pyStrip_idem (l : List Char) : pyStrip (pyStrip l) = pyStrip l := by
  have h1 : (pyStrip l).dropWhile isPySpace = pyStrip l := by
    rcases hp : pyStrip l with _ | ⟨x, xs⟩
    · rfl
    · have hx : isPySpace x = false := by
        rw [pyStrip] at hp
        obtain ⟨u, hu⟩ :=
          List.rdropWhile_prefix (l := l.dropWhile isPySpace) (p := isPySpace)
        rw [hp] at hu
        exact dropWhile_head_false hu.symm
      rw [List.dropWhile_cons, if_neg (by simp [hx])]
  calc pyStrip (pyStrip l)
      = ((pyStrip l).dropWhile isPySpace).rdropWhile isPySpace := rfl
    _ = (pyStrip l).rdropWhile isPySpace := by rw [h1]
    _ = pyStrip l := by rw [pyStrip]; exact List.rdropWhile_idempotent _ _

theorem collapsed_of_part {l t : List Char} (h : Collapsed l) (ht : t <:+: l) :
    Collapsed t :=
  ⟨fun c hc => h.1 c (ht.subset hc), List.Chain'.infix h.2 ht⟩

theorem collapsed_map_pyToLower {l : List Char} (h : Collapsed l) :
    Collapsed (l.map pyToLower) := by
  constructor
  · intro c hc hsp
    obtain ⟨d, hd, rfl⟩ := List.mem_map.mp hc
    rw [isPySpace_pyToLower] at hsp
    rw [h.1 d hd hsp]
    decide
  · rw [List.chain'_map]
    exact h.2.imp (fun a b hab => by
      rw [isPySpace_pyToLower, isPySpace_pyToLower]; exact hab)

theorem map_eq_self_of_fixed {f : Char → Char} {l : List Char}
    (h : ∀ c ∈ l, f c = c) : l.map f = l := by
  induction l with
  | nil => rfl
  | cons c cs ih =>
    rw [List.map_cons, h c (List.mem_cons_self c cs),
      ih (fun x hx => h x (List.mem_cons_of_mem c hx))]

/-! ## Lemmas: shape of `normalize_text` output -/

theorem pyToLower_space : pyToLower ' ' = ' ' := by decide

theorem normalizeChars_char_class {s : List Char} {c : Char}
    (h : c ∈ normalizeChars s) : (isWordChar c = true ∨ c = ' ') ∧ pyToLower c = c := by
  rw [normalizeChars] at h
  split at h
  · exact absurd h (List.not_mem_nil c)
  · have h2 := mem_pyStrip h
    obtain ⟨d, hd, rfl⟩ := List.mem_map.mp h2
    refine ⟨?_, pyToLower_idem d⟩
    rcases mem_collapseWs hd with rfl | ⟨hdm, hdn⟩
    · exact Or.inr pyToLower_space
    · simp only [filterWordSpace] at hdm
      have hw := (List.mem_filter.mp hdm).2
      have hdw : isWordChar d = true := by
        rcases Bool.or_eq_true_iff.mp hw with hx | hx
        · exact hx
        · rw [hx] at hdn; cases hdn
      exact Or.inl (by rw [isWordChar_pyToLower]; exact hdw)

theorem normalizeChars_collapsed (s : List Char) : Collapsed (normalizeChars s) := by
  rw [normalizeChars]
  split
  · exact ⟨fun c hc => absurd hc (List.not_mem_nil c), List.chain'_nil⟩
  · exact collapsed_of_part (collapsed_map_pyToLower (collapsed_collapseWs _))
      (pyStrip_part _)

theorem pyStrip_normalizeChars (s : List Char) :
    pyStrip (normalizeChars s) = normalizeChars s := by
  rw [normalizeChars]
  split
  · rfl
  · exact pyStrip_idem _

/-- Core of the idempotence analysis: a second pass of the `normalize_text`
pipeline leaves its own output unchanged, provided that output contains no
four consecutive digits (which would re-trigger the year pattern). -/
theorem normalizeChars_idem {s : List Char}
    (h : has4Digits (normalizeChars s) = false) :
    normalizeChars (normalizeChars s) = normalizeChars s := by
  rcases hn : normalizeChars s with _ | ⟨c, cs⟩
  · rw [normalizeChars, if_pos rfl]
  · rw [← hn]
    have hcc : ∀ x ∈ normalizeChars s, (isWordChar x = true ∨ x = ' ') ∧ pyToLower x = x :=
      fun x hx => normalizeChars_char_class hx
    have hnop : (Char.ofNat 40) ∉ normalizeChars s := by
      intro hm
      rcases (hcc _ hm).1 with hw | hsp
      · rw [show isWordChar (Char.ofNat 40) = false from by decide] at hw
        cases hw
      · exact absurd hsp (by decide)
    have hnbr : (Char.ofNat 91) ∉ normalizeChars s := by
      intro hm
      rcases (hcc _ hm).1 with hw | hsp
      · rw [show isWordChar (Char.ofNat 91) = false from by decide] at hw
        cases hw
      · exact absurd hsp (by decide)
    have hne : normalizeChars s ≠ [] := by rw [hn]; exact List.cons_ne_nil c cs
    rw [normalizeChars, if_neg hne]
    rw [stripSpans_eq_self hnop, stripSpans_eq_self hnbr, yearSub_eq_self h]
    rw [filterWordSpace_eq_self (fun x hx => by
      rcases (hcc x hx).1 with hw | hsp
      · simp [hw]
      · subst hsp; decide)]
    rw [collapseWs_eq_self (normalizeChars_collapsed s)]
    rw [map_eq_self_of_fixed (fun x hx => (hcc x hx).2)]
    exact pyStrip_normalizeChars s

/-! ## Lemmas: the pipeline over letter-only prefixes -/

theorem collapseWs_append_nospace {X T : List Char}
    (h : ∀ c ∈ X, isPySpace c = false) :
    collapseWs (X ++ T) = X ++ collapseWs T := by
  induction X with
  | nil => rfl
  | cons x xs ih =>
    rw [List.cons_append, collapseWs_cons_nospace (h x (List.mem_cons_self x xs)),
      ih (fun c hc => h c (List.mem_cons_of_mem x hc))]
    rfl

theorem collapsed_of_nospace : ∀ {l : List Char},
    (∀ c ∈ l, isPySpace c = false) → Collapsed l := by
  intro l
  induction l with
  | nil =>
    intro _
    exact ⟨fun c hc => absurd hc (List.not_mem_nil c), List.chain'_nil⟩
  | cons c cs ih =>
    intro h
    have hcs := ih (fun x hx => h x (List.mem_cons_of_mem c hx))
    refine ⟨fun x hx hsp => absurd hsp (by rw [h x hx]; simp), ?_⟩
    rw [List.chain'_cons']
    exact ⟨fun b _ => Or.inl (h c (List.mem_cons_self c cs)), hcs.2⟩

theorem pyStrip_eq_self {l : List Char}
    (h1 : ∀ hl : l ≠ [], isPySpace (l.head hl) = false)
    (h2 : ∀ hl : l ≠ [], isPySpace (l.getLast hl) = false) : pyStrip l = l := by
  cases l with
  | nil => rfl
  | cons c cs =>
    have hc : isPySpace c = false := h1 (List.cons_ne_nil c cs)
    rw [pyStrip, List.dropWhile_cons, if_neg (by simp [hc])]
    exact List.rdropWhile_eq_self_iff.mpr (fun hl => by
      rw [h2 (List.cons_ne_nil c cs)]; simp)

/-- Facts about a nonempty all-lowercase-letter title `X` (as used in the
amended version-vocabulary claim). -/
theorem letters_facts {X : List Char} (hX : ∀ c ∈ X, 97 ≤ c.toNat ∧ c.toNat ≤ 122) :
    (∀ c ∈ X, isPySpace c = false) ∧ (∀ c ∈ X, isWordChar c = true) ∧
    (∀ c ∈ X, c ≠ Char.ofNat 40) ∧ (Char.ofNat 91) ∉ X ∧
    (∀ c ∈ X, isAsciiDigit c = false) ∧ (∀ c ∈ X, pyToLower c = c) := by
  have h40 : (Char.ofNat 40).toNat = 40 := by decide
  have h91 : (Char.ofNat 91).toNat = 91 := by decide
  refine ⟨?_, ?_, ?_, ?_, ?_, ?_⟩
  · intro c hc
    have := hX c hc
    simp only [isPySpace, Bool.or_eq_false_iff, decide_eq_false_iff_not]
    omega
  · intro c hc
    have := hX c hc
    simp only [isWordChar, isAsciiDigit, Bool.or_eq_true, Bool.and_eq_true,
      decide_eq_true_eq]
    omega
  · intro c hc heq
    have := hX c hc
    rw [char_eq_iff_toNat, h40] at heq
    omega
  · intro hm
    have := hX _ hm
    rw [h91] at this
    omega
  · intro c hc
    have := hX c hc
    simp only [isAsciiDigit, Bool.and_eq_false_iff, decide_eq_false_iff_not]
    omega
  · intro c hc
    have := hX c hc
    exact pyToLower_eq_self c (by omega)

theorem normalizeChars_append_remix {X : List Char} (hne : X ≠ [])
    (hX : ∀ c ∈ X, 97 ≤ c.toNat ∧ c.toNat ≤ 122) :
    normalizeChars (X ++ " (Remix)".toList) = X := by
  obtain ⟨hsp, hword, hnotop, hnotbr, hnodig, hlow⟩ := letters_facts hX
  rw [normalizeChars, if_neg (by simp)]
  rw [stripSpans_append_safe (fun c hc => ⟨hsp c hc, hnotop c hc⟩)]
  rw [show stripSpans versionKeys (Char.ofNat 40) (Char.ofNat 41) (" (Remix)".toList) = []
    from by decide]
  rw [List.append_nil]
  rw [stripSpans_eq_self hnotbr]
  rw [yearSub_eq_self (has4Digits_eq_false_of_no_digit hnodig)]
  rw [filterWordSpace_eq_self (fun c hc => by simp [hword c hc])]
  rw [collapseWs_eq_self (collapsed_of_nospace hsp)]
  rw [map_eq_self_of_fixed hlow]
  exact pyStrip_eq_self (fun hl => hsp _ (List.head_mem hl))
    (fun hl => hsp _ (List.getLast_mem hl))

theorem normalizeChars_append_instrumental {X : List Char} (hne : X ≠ [])
    (hX : ∀ c ∈ X, 97 ≤ c.toNat ∧ c.toNat ≤ 122) :
    normalizeChars (X ++ " (Instrumental)".toList) = X ++ " instrumental".toList := by
  obtain ⟨hsp, hword, hnotop, hnotbr, hnodig, hlow⟩ := letters_facts hX
  rw [normalizeChars, if_neg (by simp)]
  rw [stripSpans_append_safe (fun c hc => ⟨hsp c hc, hnotop c hc⟩)]
  rw [show stripSpans versionKeys (Char.ofNat 40) (Char.ofNat 41)
    (" (Instrumental)".toList) = " (Instrumental)".toList from by decide]
  rw [stripSpans_eq_self (fun hm => by
    rcases List.mem_append.mp hm with hm1 | hm2
    · exact hnotbr hm1
    · exact absurd hm2 (by decide))]
  have hTdig : ∀ c ∈ " (Instrumental)".toList, isAsciiDigit c = false := by decide
  rw [yearSub_eq_self (has4Digits_eq_false_of_no_digit (fun c hc => by
    rcases List.mem_append.mp hc with hc1 | hc2
    · exact hnodig c hc1
    · exact hTdig c hc2))]
  rw [filterWordSpace, List.filter_append]
  rw [List.filter_eq_self.mpr (fun c hc => by simp [hword c hc])]
  rw [show (" (Instrumental)".toList.filter (fun c => isWordChar c || isPySpace c)) =
    ' ' :: "Instrumental".toList from by decide]
  rw [collapseWs_append_nospace hsp]
  rw [show collapseWs (' ' :: "Instrumental".toList) = ' ' :: "Instrumental".toList
    from by decide]
  rw [List.map_append, map_eq_self_of_fixed hlow]
  rw [show (' ' :: "Instrumental".toList).map pyToLower = " instrumental".toList
    from by decide]
  refine pyStrip_eq_self (fun hl => ?_) (fun hl => ?_)
  · obtain ⟨x, X', rfl⟩ := List.exists_cons_of_ne_nil hne
    simp only [List.cons_append, List.head_cons]
    exact hsp x (List.mem_cons_self x X')
  · rw [List.getLast_append]
    rw [dif_neg (by decide)]
    decide

/-! ## Claim C1: idempotence of `normalize_text` -/

/-- **C1** (counterexample): `normalize_text` is *not* idempotent.  On
`"12.34"` the punctuation-stripping step welds the digits into `"1234"`, and a
second application then deletes that fresh 4-digit run as a year, yielding
`""`. -/
theorem normalize_text_idempotent_cx :
    normalize_text "12.34" = "1234" ∧
    normalize_text (normalize_text "12.34") = "" ∧
    normalize_text (normalize_text "12.34") ≠ normalize_text "12.34" := by
  decide

/-- **C1** (amended): `normalize_text` is idempotent on every input whose
normalized output contains no four consecutive ASCII digits (in particular on
every digit-free string).  The unrestricted claim fails —
see `normalize_text_idempotent_cx` — because stripping punctuation can create
a fresh 4-digit run that the year pattern deletes on a second pass. -/
theorem normalize_text_idempotent_amended (s : String)
    (h : has4Digits (normalize_text s).toList = false) :
    normalize_text (normalize_text s) = normalize_text s := by
  show (⟨normalizeChars (normalizeChars s.toList)⟩ : String) = ⟨normalizeChars s.toList⟩
  rw [normalizeChars_idem h]

theorem normalize_text_idempotent_amended_witness :
    has4Digits (normalize_text "Hello (Live) 2011!").toList = false ∧
    normalize_text (normalize_text "Hello (Live) 2011!") =
      normalize_text "Hello (Live) 2011!" :=
  ⟨by decide, normalize_text_idempotent_amended _ (by decide)⟩

/-! ## Claim C8: the version-indicator vocabulary -/

/-- **C8** (counterexample): the vocabulary stripped by `normalize_text` does
not contain `instrumental`, `deluxe`, `extended`, `mono`, `stereo`; a title
`"X (Instrumental)"` keeps the word (only the parentheses are dropped), so its
normalization differs from that of `"X"`.  The `advanced_playlist_cleaner`
variant additionally lacks `explicit` and `clean`. -/
theorem version_vocab_cx :
    normalize_text "X (Instrumental)" = "x instrumental" ∧
    normalize_text "X" = "x" ∧
    normalize_text "X (Instrumental)" ≠ normalize_text "X" ∧
    normalize_text "X [Deluxe]" = "x deluxe" ∧
    advNormalize_text "X (Instrumental)" ≠ advNormalize_text "X" ∧
    normalize_text "X (Remix)" = normalize_text "X" ∧
    advNormalize_text "X (Clean)" = "x clean" ∧
    normalize_text "X (Clean)" = "x" := by
  decide

/-- **C8** (amended): the vocabulary whose case-insensitive *substring*
occurrence inside a parenthesized/bracketed span triggers stripping is
`remaster, mix, version, edit, live, acoustic, demo, feat, featuring,
explicit, clean` (so `remix`/`remastered` match via `mix`/`remaster`), and it
does not include `instrumental`, `deluxe`, `extended`, `mono`, `stereo`: for
every nonempty lowercase-letter title `X`, `"X (Remix)"` normalizes to `X`
while `"X (Instrumental)"` normalizes to `X ++ " instrumental"`. -/
theorem version_vocab_amended (X : List Char) (hne : X ≠ [])
    (hX : ∀ c ∈ X, 97 ≤ c.toNat ∧ c.toNat ≤ 122) :
    normalizeChars (X ++ " (Remix)".toList) = X ∧
    normalizeChars (X ++ " (Instrumental)".toList) = X ++ " instrumental".toList :=
  ⟨normalizeChars_append_remix hne hX, normalizeChars_append_instrumental hne hX⟩

theorem version_vocab_amended_witness :
    normalizeChars ("song".toList ++ " (Remix)".toList) = "song".toList ∧
    normalizeChars ("song".toList ++ " (Instrumental)".toList) =
      "song".toList ++ " instrumental".toList :=
  version_vocab_amended ("song".toList) (by decide) (by decide)

/-! ## Claim C7: duplicate-group confidence by group size -/

theorem mem_findPlaylistInternalDuplicates {pts : List PTrack} {g : DupGroup}
    (h : g ∈ findPlaylistInternalDuplicates pts) :
    ∃ sg ∈ signatureGroups pts, sg.2.length > 1 ∧ g.tracks = sg.2 ∧
      g.confidence = calcDuplicateConfidence sg.2.length ∧
      g.duplicate_count = sg.2.length ∧
      g.tracks_to_keep = (decideWhichToKeep sg.2).1 ∧
      g.tracks_to_remove = (decideWhichToKeep sg.2).2 ∧
      g.review_needed = cleanerNeedsReview sg.2 := by
  rw [findPlaylistInternalDuplicates] at h
  obtain ⟨sg, hsg, hf⟩ := List.mem_filterMap.mp h
  split at hf
  next hlen =>
    cases hf
    exact ⟨sg, hsg, hlen, rfl, rfl, rfl, rfl, rfl, rfl⟩
  next =>
    cases hf

/-- **C7**: every duplicate group produced by
`find_playlist_internal_duplicates` carries the size-based confidence of
`_calculate_duplicate_confidence` (= the identical
`PlaylistDuplicate._calculate_confidence`): exactly `0.9` for 2 tracks, `0.7`
for 3–5 tracks, `0.5` for more than 5. -/
theorem duplicate_confidence_spec (pts : List PTrack) (g : DupGroup)
    (hg : g ∈ findPlaylistInternalDuplicates pts) :
    ((g.tracks.length = 2 → g.confidence = 9 / 10) ∧
     (3 ≤ g.tracks.length ∧ g.tracks.length ≤ 5 → g.confidence = 7 / 10) ∧
     (5 < g.tracks.length → g.confidence = 1 / 2)) ∧
    ∀ n : ℕ, (n = 2 → calcDuplicateConfidence n = 9 / 10) ∧
      (3 ≤ n ∧ n ≤ 5 → calcDuplicateConfidence n = 7 / 10) ∧
      (5 < n → calcDuplicateConfidence n = 1 / 2) := by
  obtain ⟨sg, _, hlen, htr, hconf, _⟩ := mem_findPlaylistInternalDuplicates hg
  have hc : g.confidence = calcDuplicateConfidence g.tracks.length := by
    rw [htr, hconf]
  refine ⟨⟨fun h2 => ?_, fun h35 => ?_, fun h5 => ?_⟩,
    fun n => ⟨fun h2 => ?_, fun h35 => ?_, fun h5 => ?_⟩⟩
  · rw [hc, h2, calcDuplicateConfidence, if_pos rfl, Rat.mkRat_eq_div]
    norm_num
  · rw [hc, calcDuplicateConfidence, if_neg (by omega), if_pos (by omega),
      Rat.mkRat_eq_div]
    norm_num
  · rw [hc, calcDuplicateConfidence, if_neg (by omega), if_neg (by omega),
      Rat.mkRat_eq_div]
    norm_num
  · rw [h2, calcDuplicateConfidence, if_pos rfl, Rat.mkRat_eq_div]
    norm_num
  · rw [calcDuplicateConfidence, if_neg (by omega), if_pos (by omega), Rat.mkRat_eq_div]
    norm_num
  · rw [calcDuplicateConfidence, if_neg (by omega), if_neg (by omega), Rat.mkRat_eq_div]
    norm_num

theorem duplicate_confidence_spec_witness :
    ∃ g ∈ findPlaylistInternalDuplicates [trackA, trackA2],
      (g.tracks.length = 2 → g.confidence = 9 / 10) ∧ g.confidence = 9 / 10 := by
  have hmem : ∀ g ∈ findPlaylistInternalDuplicates [trackA, trackA2],
      (g.tracks.length = 2 → g.confidence = 9 / 10) := by
    intro g hg
    exact ((duplicate_confidence_spec [trackA, trackA2] g hg).1).1
  refine ⟨(findPlaylistInternalDuplicates [trackA, trackA2]).head (by decide), ?_, ?_, ?_⟩
  · exact List.head_mem (by decide)
  · exact hmem _ (List.head_mem (by decide))
  · exact hmem _ (List.head_mem (by decide)) (by decide)

/-! ## Claim C4: keeper selection partitions the group -/

theorem decideWhichToKeepBy_partition {α : Type} (title : α → String)
    (tracks : List α) (h : tracks ≠ []) :
    (decideWhichToKeepBy title tracks).1.length = 1 ∧
    ((decideWhichToKeepBy title tracks).1 ++ (decideWhichToKeepBy title tracks).2).Perm
      tracks := by
  have hperm := List.perm_insertionSort
    (fun a b =>
      tupleLeB (trackPreferenceScore (title a)) (trackPreferenceScore (title b)) = true)
    tracks
  rw [decideWhichToKeepBy, if_neg (by simp [h])]
  rcases hsort : List.insertionSort
      (fun a b =>
        tupleLeB (trackPreferenceScore (title a)) (trackPreferenceScore (title b)) = true)
      tracks with _ | ⟨k, rest⟩
  · rw [hsort] at hperm
    have hlen := hperm.length_eq
    simp only [List.length_nil] at hlen
    exact absurd (List.length_eq_zero.mp hlen.symm) h
  · rw [hsort] at hperm
    exact ⟨rfl, hperm⟩

/-- **C4**: for every nonempty track list, `_decide_which_to_keep` (both the
`DuplicateGroup` and the `PlaylistDuplicate` implementation) keeps exactly one
track, and keep ++ remove is a permutation of the input (every member appears
exactly once across the two lists); the same holds for every group built by
`find_playlist_internal_duplicates`. -/
theorem keeper_partition_spec (tracks : List PTrack) (dtracks : List DTrack)
    (pts : List PTrack) (h1 : tracks ≠ []) (h2 : dtracks ≠ []) :
    ((decideWhichToKeep tracks).1.length = 1 ∧
      ((decideWhichToKeep tracks).1 ++ (decideWhichToKeep tracks).2).Perm tracks) ∧
    ((deduperDecideWhichToKeep dtracks).1.length = 1 ∧
      ((deduperDecideWhichToKeep dtracks).1 ++
        (deduperDecideWhichToKeep dtracks).2).Perm dtracks) ∧
    ∀ g ∈ findPlaylistInternalDuplicates pts,
      g.tracks_to_keep.length = 1 ∧
        (g.tracks_to_keep ++ g.tracks_to_remove).Perm g.tracks := by
  rw [show decideWhichToKeep = decideWhichToKeepBy (fun t : PTrack => t.title) from rfl,
    show deduperDecideWhichToKeep = decideWhichToKeepBy (fun t : DTrack => t.title)
      from rfl]
  refine ⟨decideWhichToKeepBy_partition _ tracks h1,
    decideWhichToKeepBy_partition _ dtracks h2, ?_⟩
  intro g hg
  obtain ⟨sg, _, hlen, htr, _, _, hkeep, hrem, _⟩ := mem_findPlaylistInternalDuplicates hg
  have hne : sg.2 ≠ [] := by
    intro hnil
    rw [hnil] at hlen
    simp at hlen
  rw [hkeep, hrem, htr]
  rw [show decideWhichToKeep = decideWhichToKeepBy (fun t : PTrack => t.title) from rfl]
  exact decideWhichToKeepBy_partition _ sg.2 hne

theorem keeper_partition_spec_witness :
    (decideWhichToKeep [trackA, trackA2]).1.length = 1 ∧
      ((decideWhichToKeep [trackA, trackA2]).1 ++
        (decideWhichToKeep [trackA, trackA2]).2).Perm [trackA, trackA2] :=
  (keeper_partition_spec [trackA, trackA2] [⟨"T", ["A"], none⟩] []
    (by decide) (by decide)).1

/-! ## Claim C3: duration parsing in the review decision -/

/-- **C3** (counterexample): in `PlaylistCleaner._duplicate_needs_review` a
present-but-unparsable duration string is *not* excluded from the variance
check: `"abc"` parses to `0` seconds and is kept (only absent/empty strings
are filtered), so the 2-track group `(3:00, "abc")` is flagged for review,
while the same group with the duration absent is not — contradicting the
claim that a duration that fails to parse is excluded exactly like an absent
one (under the claim, only one duration parses here, so the variance check
should be skipped and the decision `false` in both cases). -/
theorem duration_parse_exclusion_cx :
    parse_duration (some "abc") = 0 ∧
    cleanerNeedsReview [trackA, trackB] = true ∧
    cleanerNeedsReview [trackA, trackBAbsent] = false ∧
    cleanerNeedsReview [trackA, trackB] ≠ cleanerNeedsReview [trackA, trackBAbsent] := by
  decide

/-- **C3** (amended): `PlaylistDuplicate._needs_review` (playlist_deduper)
satisfies the claim — parsing never raises (it is total, `0` standing for the
`except` path), durations that do not parse to a positive value are excluded
(replacing one by an absent duration never changes the decision), and the
variance check is skipped when fewer than two durations parse positively.  In
`PlaylistCleaner._duplicate_needs_review` only absent/empty duration strings
are excluded and the skip condition counts truthy duration strings: a present
unparsable duration enters the variance check as `0` seconds
(`duration_parse_exclusion_cx`). -/
theorem duration_review_spec :
    (∀ tracks : List DTrack,
      ((tracks.map (fun t => parse_duration t.duration)).filter
        (fun d => d > 0)).length < 2 →
      deduperNeedsReview tracks =
        (decide (calcDuplicateConfidence tracks.length < mkRat 4 5) ||
          decide (tracks.length > 3))) ∧
    (∀ (pre post : List DTrack) (t : DTrack), parse_duration t.duration ≤ 0 →
      deduperNeedsReview (pre ++ t :: post) =
        deduperNeedsReview (pre ++ (⟨t.title, t.artists, none⟩ : DTrack) :: post)) ∧
    (∀ tracks : List PTrack,
      (tracks.filter (fun t => truthyStr t.duration)).length < 2 →
      cleanerNeedsReview tracks =
        (decide (calcDuplicateConfidence tracks.length < mkRat 4 5) ||
          decide (tracks.length > 3))) ∧
    (∀ (pre post : List PTrack) (t : PTrack), truthyStr t.duration = false →
      cleanerNeedsReview (pre ++ t :: post) =
        cleanerNeedsReview (pre ++
          (⟨t.video_id, t.set_video_id, t.title, t.artists, t.album, none⟩ : PTrack)
            :: post)) := by
  refine ⟨?_, ?_, ?_, ?_⟩
  · intro tracks hlen
    rw [deduperNeedsReview]
    split
    next h1 => simp [h1]
    next h1 =>
      split
      next h2 => simp [h1, h2]
      next h2 =>
        rw [durationVariance, if_neg (by omega)]
        simp [h1, h2]
  · intro pre post t ht
    have h1 : (decide (parse_duration t.duration > 0)) = false := by
      simp only [decide_eq_false_iff_not]
      omega
    have hdur :
        ((pre ++ t :: post).map (fun t => parse_duration t.duration)).filter
            (fun d => d > 0) =
          ((pre ++ (⟨t.title, t.artists, none⟩ : DTrack) :: post).map
            (fun t => parse_duration t.duration)).filter (fun d => d > 0) := by
      simp only [List.map_append, List.map_cons, List.filter_append, List.filter_cons]
      rw [h1]
      rw [show (decide (parse_duration (none : Option String) > 0)) = false from by decide]
      simp
    have hlen : (pre ++ t :: post).length =
        (pre ++ (⟨t.title, t.artists, none⟩ : DTrack) :: post).length := by
      simp
    rw [deduperNeedsReview, deduperNeedsReview, hdur, hlen]
  · intro tracks hlen
    rw [cleanerNeedsReview]
    split
    next h1 => simp [h1]
    next h1 =>
      split
      next h2 => simp [h1, h2]
      next h2 =>
        rw [durationVariance, if_neg (by rw [List.length_map]; omega)]
        simp [h1, h2]
  · intro pre post t ht
    have hdur :
        ((pre ++ t :: post).filter (fun t => truthyStr t.duration)).map
            (fun t => parse_duration t.duration) =
          ((pre ++
            (⟨t.video_id, t.set_video_id, t.title, t.artists, t.album, none⟩ : PTrack)
              :: post).filter (fun t => truthyStr t.duration)).map
            (fun t => parse_duration t.duration) := by
      simp only [List.filter_append, List.filter_cons]
      rw [ht]
      rw [show truthyStr (none : Option String) = false from rfl]
      simp
    have hlen : (pre ++ t :: post).length =
        (pre ++
          (⟨t.video_id, t.set_video_id, t.title, t.artists, t.album, none⟩ : PTrack)
            :: post).length := by
      simp
    rw [cleanerNeedsReview, cleanerNeedsReview, hdur, hlen]

theorem duration_review_spec_witness :
    deduperNeedsReview
        [(⟨"Song A", ["Artist"], some "3:00"⟩ : DTrack),
         (⟨"Song A", ["Artist"], some "abc"⟩ : DTrack)] =
      (decide (calcDuplicateConfidence
          ([(⟨"Song A", ["Artist"], some "3:00"⟩ : DTrack),
            (⟨"Song A", ["Artist"], some "abc"⟩ : DTrack)] : List DTrack).length
            < mkRat 4 5) ||
        decide (([(⟨"Song A", ["Artist"], some "3:00"⟩ : DTrack),
            (⟨"Song A", ["Artist"], some "abc"⟩ : DTrack)] : List DTrack).length > 3)) :=
  duration_review_spec.1
    [⟨"Song A", ["Artist"], some "3:00"⟩, ⟨"Song A", ["Artist"], some "abc"⟩]
    (by decide)

/-! ## Claim C2: ISRC matches -/

theorem lookupKey_insertOverwrite_same {β : Type _} (k : String) (v : β)
    (idx : List (String × β)) : lookupKey k (insertOverwrite k v idx) = some v := by
  induction idx with
  | nil => simp [insertOverwrite, lookupKey]
  | cons p rest ih =>
    by_cases h : p.1 = k
    · simp [insertOverwrite, lookupKey, h]
    · simp [insertOverwrite, lookupKey, h, ih]

theorem lookupKey_insertOverwrite_other {β : Type _} {k k' : String} (h : k' ≠ k)
    (v : β) (idx : List (String × β)) :
    lookupKey k' (insertOverwrite k v idx) = lookupKey k' idx := by
  have hkk : ¬ k = k' := fun he => h he.symm
  induction idx with
  | nil => simp [insertOverwrite, lookupKey, hkk]
  | cons p rest ih =>
    by_cases h0 : p.1 = k
    · have hp : ¬ p.1 = k' := by rw [h0]; exact hkk
      simp [insertOverwrite, lookupKey, h0, hp, hkk]
    · by_cases h1 : p.1 = k'
      · simp [insertOverwrite, lookupKey, h0, h1, h]
      · simp [insertOverwrite, lookupKey, h0, h1, ih]

theorem isrcStep_lookup_sound {idx : List (String × MTrack)} {t : MTrack}
    {k : String} {m : MTrack} (h : lookupKey k (isrcStep idx t) = some m) :
    (m = t ∧ ∃ s, t.isrc = some s ∧ s ≠ "" ∧ pyLowerStr s = k) ∨
      lookupKey k idx = some m := by
  rw [isrcStep] at h
  split at h
  next s hs =>
    split at h
    next hne =>
      by_cases hk : pyLowerStr s = k
      · subst hk
        rw [lookupKey_insertOverwrite_same] at h
        cases h
        exact Or.inl ⟨rfl, s, hs, hne, rfl⟩
      · rw [lookupKey_insertOverwrite_other (fun he => hk he.symm) t idx] at h
        exact Or.inr h
    next => exact Or.inr h
  next => exact Or.inr h

theorem foldl_isrc_lookup_sound :
    ∀ (ts : List MTrack) (idx0 : List (String × MTrack)) (k : String) (m : MTrack),
      lookupKey k (ts.foldl isrcStep idx0) = some m →
      (m ∈ ts ∧ ∃ s, m.isrc = some s ∧ s ≠ "" ∧ pyLowerStr s = k) ∨
        lookupKey k idx0 = some m := by
  intro ts
  induction ts with
  | nil => exact fun idx0 k m h => Or.inr h
  | cons t rest ih =>
    intro idx0 k m h
    rw [List.foldl_cons] at h
    rcases ih (isrcStep idx0 t) k m h with ⟨hmem, hs⟩ | hbase
    · exact Or.inl ⟨List.mem_cons_of_mem t hmem, hs⟩
    · rcases isrcStep_lookup_sound hbase with ⟨rfl, s, h1, h2, h3⟩ | h4
      · exact Or.inl ⟨List.mem_cons_self _ _, s, h1, h2, h3⟩
      · exact Or.inr h4

theorem lookupKey_isSome_isrcStep {idx : List (String × MTrack)} (t : MTrack)
    {k : String} {m : MTrack} (h : lookupKey k idx = some m) :
    ∃ m2, lookupKey k (isrcStep idx t) = some m2 := by
  rcases hi : t.isrc with _ | s
  · rw [isrcStep, hi]
    exact ⟨m, h⟩
  · rw [isrcStep, hi]
    dsimp only
    by_cases hne : s ≠ ""
    · rw [if_pos hne]
      by_cases hk : pyLowerStr s = k
      · subst hk
        exact ⟨t, lookupKey_insertOverwrite_same _ t idx⟩
      · rw [lookupKey_insertOverwrite_other (fun he => hk he.symm) t idx]
        exact ⟨m, h⟩
    · rw [if_neg hne]
      exact ⟨m, h⟩

theorem foldl_isrc_lookup_exists :
    ∀ (ts : List MTrack) (idx0 : List (String × MTrack)) (k : String),
      ((∃ t ∈ ts, ∃ s, t.isrc = some s ∧ s ≠ "" ∧ pyLowerStr s = k) ∨
        (∃ v, lookupKey k idx0 = some v)) →
      ∃ m, lookupKey k (ts.foldl isrcStep idx0) = some m := by
  intro ts
  induction ts with
  | nil =>
    intro idx0 k h
    rcases h with ⟨t, ht, _⟩ | ⟨v, hv⟩
    · exact absurd ht (List.not_mem_nil t)
    · exact ⟨v, hv⟩
  | cons t rest ih =>
    intro idx0 k h
    rw [List.foldl_cons]
    rcases h with ⟨t2, ht2, s, h1, h2, h3⟩ | ⟨v, hv⟩
    · rcases List.mem_cons.mp ht2 with rfl | hmem
      · refine ih (isrcStep idx0 t2) k (Or.inr ?_)
        rw [isrcStep, h1]
        dsimp only
        rw [if_pos h2, h3]
        exact ⟨t2, lookupKey_insertOverwrite_same _ t2 idx0⟩
      · exact ih (isrcStep idx0 t) k (Or.inl ⟨t2, hmem, s, h1, h2, h3⟩)
    · obtain ⟨m2, hm2⟩ := lookupKey_isSome_isrcStep t hv
      exact ih (isrcStep idx0 t) k (Or.inr ⟨m2, hm2⟩)

/-- **C2**: whenever the source has a truthy ISRC and some target's ISRC
matches it case-insensitively, `memory_efficient_comparison` returns an
ISRC-indexed target with confidence exactly `1.0` and match type `isrc`; the
result does not depend on the fuzzy matcher or on any title/artist/album/
duration field of the source (none of which the ISRC stage reads), and the
later cascade stages are not consulted. -/
theorem isrc_match_spec (fuzzy : MTrack → List MTrack → Option (MTrack × ℚ))
    (targets : List MTrack) (src : MTrack) (s : String) (t : MTrack) (s' : String)
    (hs : src.isrc = some s) (hs0 : s ≠ "") (ht : t ∈ targets)
    (ht1 : t.isrc = some s') (ht2 : s' ≠ "") (ht3 : pyLowerStr s' = pyLowerStr s) :
    ∃ m, memMatchSource fuzzy targets src = some (m, 1, "isrc") ∧ m ∈ targets ∧
      ∃ s2, m.isrc = some s2 ∧ s2 ≠ "" ∧ pyLowerStr s2 = pyLowerStr s := by
  obtain ⟨m, hm⟩ := foldl_isrc_lookup_exists targets [] (pyLowerStr s)
    (Or.inl ⟨t, ht, s', ht1, ht2, ht3⟩)
  have hm' : lookupKey (pyLowerStr s) (buildIsrcIndex targets) = some m := hm
  rcases foldl_isrc_lookup_sound targets [] (pyLowerStr s) m hm with
    ⟨hmem, s2, h1, h2, h3⟩ | habs
  · refine ⟨m, ?_, hmem, s2, h1, h2, h3⟩
    rw [memMatchSource]
    rw [hs]
    simp only [if_pos hs0, hm']
  · rw [show lookupKey (pyLowerStr s) ([] : List (String × MTrack)) =
      (none : Option MTrack) from rfl] at habs
    cases habs

theorem isrc_match_spec_witness :
    ∃ m, memMatchSource noFuzzy [mTgtIsrc, mTgtExact] mSrc = some (m, 1, "isrc") ∧
      m ∈ [mTgtIsrc, mTgtExact] ∧ ∃ s2, m.isrc = some s2 ∧ s2 ≠ "" ∧
        pyLowerStr s2 = pyLowerStr "GBUM71029601" :=
  isrc_match_spec noFuzzy [mTgtIsrc, mTgtExact] mSrc "GBUM71029601" mTgtIsrc
    "gbum71029601" rfl (by decide) (by decide) rfl (by decide) (by decide)

/-! ## Claim C6: exact-normalized matches -/

/-- **C6** (counterexample): the exact-normalized stage of
`memory_efficient_comparison` assigns the flat confidence `0.95`
(`mkRat 95 100`) without reading album or duration: a source agreeing with the
matched target on album *and* duration (`mSrc2`) gets exactly the same
confidence as one disagreeing on both (`mSrc3`) — never the strictly higher
value the claim requires when album or duration coincide. -/
theorem exact_match_flat_cx :
    memMatchSource noFuzzy [mTgtExact] mSrc2 = some (mTgtExact, mkRat 95 100, "exact") ∧
    mSrc2.album = mTgtExact.album ∧ mSrc2.duration = mTgtExact.duration ∧
    memMatchSource noFuzzy [mTgtExact] mSrc3 = some (mTgtExact, mkRat 95 100, "exact") ∧
    mSrc3.album ≠ mTgtExact.album ∧ mSrc3.duration ≠ mTgtExact.duration := by
  decide

/-- **C6** (amended): with no identifier match, a source whose
`(normalized_title, normalized_artist)` tuple is found in the target's exact
index is matched to the first track of that index bucket with confidence
exactly `0.95` and type `exact`, regardless of the album and duration fields
(which this stage never reads) and of the fuzzy matcher. -/
theorem exact_match_spec (fuzzy : MTrack → List MTrack → Option (MTrack × ℚ))
    (targets : List MTrack) (src m : MTrack) (bucket : List MTrack)
    (hno : src.isrc = none ∨ ∃ s, src.isrc = some s ∧
      (s = "" ∨ lookupKey (pyLowerStr s) (buildIsrcIndex targets) = none))
    (hexact : lookupKey (src.normalized_title, src.normalized_artist)
      (buildNormIndex targets) = some (m :: bucket)) :
    memMatchSource fuzzy targets src = some (m, mkRat 95 100, "exact") ∧
    mkRat 95 100 = 95 / 100 := by
  have hex : memMatchExact fuzzy targets src = some (m, mkRat 95 100, "exact") := by
    rw [memMatchExact, hexact]
  refine ⟨?_, by rw [Rat.mkRat_eq_div]; norm_num⟩
  rcases hno with hn | ⟨s, hs, he | hl⟩
  · rw [memMatchSource, hn]
    exact hex
  · rw [memMatchSource, hs]
    dsimp only
    rw [if_neg (by simp [he])]
    exact hex
  · rw [memMatchSource, hs]
    dsimp only
    by_cases hse : s = ""
    · rw [if_neg (by simp [hse])]
      exact hex
    · rw [if_pos hse, hl]
      exact hex

theorem exact_match_spec_witness :
    memMatchSource noFuzzy [mTgtExact] mSrc2 = some (mTgtExact, mkRat 95 100, "exact") ∧
    mkRat 95 100 = 95 / 100 :=
  exact_match_spec noFuzzy [mTgtExact] mSrc2 mTgtExact [] (Or.inl rfl) (by decide)

/-! ## Claim C5: tracks normalizing to an empty title/artist -/

/-- **C5** (counterexample): a track whose title and artist both normalize to
the empty string is *not* excluded.  In `find_playlist_internal_duplicates`
its signature is `"|"`, which is truthy, so two such tracks form a duplicate
group; and in `find_library_duplicates_with_similarity` the exact-video-id
strategy runs before the empty-title guard, so such a track can still appear
in a match result. -/
theorem empty_normalized_cx :
    normalize_text "!!!" = "" ∧
    createTrackSignature trackBang1 = "|".toList ∧
    (findPlaylistInternalDuplicates [trackBang1, trackBang2]).map DupGroup.tracks =
      [[trackBang1, trackBang2]] ∧
    matchOneTrack constSim (mkRat 85 100) [libV1] trackBang1 =
      some ⟨trackBang1, "exact_video_id", 1, []⟩ := by
  decide

/-- **C5** (amended): in `find_library_duplicates_with_similarity` a track
whose normalized title is empty (or that has no artists) yields no match
entry *unless* it matches by exact video id, and its processing is total
(no exception path exists); in `find_playlist_internal_duplicates` such
tracks are *not* excluded: every signature contains the `"|"` separator and
is therefore truthy, so the falsy-signature guard never fires and
empty-normalized tracks are grouped like any others
(`empty_normalized_cx`). -/
theorem empty_normalized_spec (sim : List Char → List Char → ℚ) (threshold : ℚ)
    (lib : List LibTrack) (p : PTrack)
    (hempty : normalizeChars p.title.toList = [])
    (hvid : ¬ (p.video_id ≠ "" ∧ p.video_id ∈ libraryVideoIds lib)) :
    matchOneTrack sim threshold lib p = none ∧
    ∀ t : PTrack, createTrackSignature t ≠ [] := by
  constructor
  · rw [matchOneTrack, if_neg hvid]
    simp only [hempty, List.isEmpty_nil, Bool.true_or, if_true]
  · intro t
    rw [createTrackSignature]
    simp

theorem empty_normalized_spec_witness :
    matchOneTrack constSim (mkRat 85 100) [libV1]
        (⟨"vZ", "s", "!!!", [], none, none⟩ : PTrack) = none ∧
    ∀ t : PTrack, createTrackSignature t ≠ [] :=
  empty_normalized_spec constSim (mkRat 85 100) [libV1] _ (by decide) (by decide)

/-! ## Claim C9: similarity matches stay below the auto-remove threshold -/

theorem mem_fuzzy_foldl_le {sim : List Char → List Char → ℚ} {threshold : ℚ}
    {key : List Char} (hsim : ∀ a b, sim a b ≤ 1) :
    ∀ (l : List (List Char × List LibTrack)) (acc : List SimEntry),
      (∀ e ∈ acc, e.similarity ≤ 1) →
      ∀ e ∈ l.foldl (fun acc2 kb =>
          if sim key kb.1 ≥ threshold then
            acc2 ++ kb.2.map (fun t => ⟨t, sim key kb.1⟩)
          else acc2) acc, e.similarity ≤ 1 := by
  intro l
  induction l with
  | nil => exact fun acc hacc e he => hacc e he
  | cons kb rest ih =>
    intro acc hacc e he
    rw [List.foldl_cons] at he
    refine ih _ ?_ e he
    intro x hx
    split at hx
    · rcases List.mem_append.mp hx with h1 | h2
      · exact hacc x h1
      · obtain ⟨t, _, rfl⟩ := List.mem_map.mp h2
        exact hsim key kb.1
    · exact hacc x hx

theorem mem_candidatesForArtist_le {sim : List Char → List Char → ℚ}
    {threshold : ℚ} {idx : List (List Char × List LibTrack)} {key : List Char}
    (hsim : ∀ a b, sim a b ≤ 1) {e : SimEntry}
    (he : e ∈ candidatesForArtist sim threshold idx key) : e.similarity ≤ 1 := by
  rw [candidatesForArtist] at he
  split at he
  · obtain ⟨t, _, rfl⟩ := List.mem_map.mp he
    exact le_refl 1
  · exact mem_fuzzy_foldl_le hsim idx [] (fun x hx => absurd hx (List.not_mem_nil x)) e he

theorem mem_best_foldl_le {sim : List Char → List Char → ℚ} {threshold : ℚ}
    {idx : List (List Char × List LibTrack)} {keyOf : String → List Char}
    (hsim : ∀ a b, sim a b ≤ 1) :
    ∀ (artists : List String) (acc : List SimEntry),
      (∀ e ∈ acc, e.similarity ≤ 1) →
      ∀ e ∈ artists.foldl (fun acc artist =>
          acc ++ candidatesForArtist sim threshold idx (keyOf artist)) acc,
        e.similarity ≤ 1 := by
  intro artists
  induction artists with
  | nil => exact fun acc hacc e he => hacc e he
  | cons a rest ih =>
    intro acc hacc e he
    rw [List.foldl_cons] at he
    refine ih _ ?_ e he
    intro x hx
    rcases List.mem_append.mp hx with h1 | h2
    · exact hacc x h1
    · exact mem_candidatesForArtist_le hsim h2

/-- **C9**: in `find_library_duplicates_with_similarity`, every
similarity-typed match has confidence at most `0.9` (best similarity, at most
`1`, scaled by `0.9`), so the `high_confidence` partition (`≥ 0.95`) — the
only matches `clean_playlist_with_similarity` auto-removes — contains
exact-video-id matches only. -/
theorem similarity_confidence_spec (sim : List Char → List Char → ℚ)
    (threshold : ℚ) (lib : List LibTrack) (pts : List PTrack)
    (hsim : ∀ a b, sim a b ≤ 1) :
    ∀ m ∈ findLibraryDuplicatesWithSimilarity sim threshold lib pts,
      (m.match_type = "similarity" → m.confidence ≤ 9 / 10) ∧
      (95 / 100 ≤ m.confidence → m.match_type = "exact_video_id") ∧
      (m ∈ highConfidenceMatches sim threshold lib pts →
        m.match_type = "exact_video_id") := by
  intro m hm
  obtain ⟨p, hp, hmo⟩ := List.mem_filterMap.mp hm
  rw [matchOneTrack] at hmo
  split at hmo
  · cases hmo
    refine ⟨fun h => ?_, fun _ => rfl, fun _ => rfl⟩
    simp at h
  · dsimp only at hmo
    split at hmo
    · cases hmo
    · split at hmo
      next top1 rest hsort =>
        cases hmo
        have htop : top1.similarity ≤ 1 := by
          have hperm := List.perm_insertionSort
            (fun a b : SimEntry => b.similarity ≤ a.similarity)
            (p.artists.foldl (fun acc artist =>
              acc ++ candidatesForArtist sim threshold (libraryNormalized lib)
                (normalizeChars p.title.toList ++
                  (Char.ofNat 124) :: normalizeChars artist.toList)) [])
          rw [hsort] at hperm
          have hmem : top1 ∈ (top1 :: rest) := List.mem_cons_self top1 rest
          have := hperm.subset hmem
          exact mem_best_foldl_le hsim p.artists []
            (fun x hx => absurd hx (List.not_mem_nil x)) top1 this
        have hconf : top1.similarity * mkRat 9 10 ≤ 9 / 10 := by
          rw [Rat.mkRat_eq_div]
          push_cast
          nlinarith [htop]
        refine ⟨fun _ => hconf, fun hge => ?_, fun hmem => ?_⟩
        · exfalso
          simp only at hge hconf
          linarith
        · exfalso
          have := (List.mem_filter.mp hmem).2
          simp only [ge_iff_le, decide_eq_true_eq] at this
          have h95 : mkRat 95 100 = (95 : ℚ) / 100 := by
            rw [Rat.mkRat_eq_div]
            norm_num
          rw [h95] at this
          simp only at this hconf
          linarith
      next hsort => cases hmo

theorem similarity_confidence_spec_witness :
    ∃ m ∈ findLibraryDuplicatesWithSimilarity constSim (mkRat 85 100) [libV1]
        [(⟨"v1", "s", "Whatever", ["A"], none, none⟩ : PTrack)],
      (m.match_type = "similarity" → m.confidence ≤ 9 / 10) ∧
      (95 / 100 ≤ m.confidence → m.match_type = "exact_video_id") := by
  refine ⟨⟨⟨"v1", "s", "Whatever", ["A"], none, none⟩, "exact_video_id", 1, []⟩,
    by decide, ?_⟩
  have h := similarity_confidence_spec constSim (mkRat 85 100) [libV1]
    [⟨"v1", "s", "Whatever", ["A"], none, none⟩]
    (fun a b => by rw [constSim]; norm_num)
    ⟨⟨"v1", "s", "Whatever", ["A"], none, none⟩, "exact_video_id", 1, []⟩ (by decide)
  exact ⟨h.1, h.2.1⟩

/-! ## Claim C10: `find_duplicates` groups are pairwise disjoint -/

theorem mem_anchorGroup_not_processed {isDup : ℕ → ℕ → Bool} {processed : List ℕ}
    {i n x : ℕ} (hi : i ∉ processed) (hx : x ∈ anchorGroup isDup processed i n) :
    x ∉ processed := by
  rw [anchorGroup] at hx
  rcases List.mem_cons.mp hx with rfl | hx'
  · exact hi
  · have := (List.mem_filter.mp hx').2
    simp only [Bool.and_eq_true, decide_eq_true_eq] at this
    exact this.1.2

theorem findDupGo_disjoint (isDup : ℕ → ℕ → Bool) (n : ℕ) :
    ∀ (anchors processed : List ℕ),
      List.Pairwise (fun g1 g2 => ∀ x ∈ g1, x ∉ g2)
        (findDupGo isDup n anchors processed) ∧
      (∀ g ∈ findDupGo isDup n anchors processed, ∀ x ∈ g, x ∉ processed) := by
  intro anchors
  induction anchors with
  | nil =>
    intro processed
    exact ⟨List.Pairwise.nil, fun g hg => absurd hg (List.not_mem_nil g)⟩
  | cons i rest ih =>
    intro processed
    rw [findDupGo]
    by_cases hi : i ∈ processed
    · rw [if_pos hi]
      exact ih processed
    · rw [if_neg hi]
      by_cases hlen : (anchorGroup isDup processed i n).length > 1
      · rw [if_pos hlen]
        obtain ⟨ihp, ihn⟩ := ih (processed ++ anchorGroup isDup processed i n)
        refine ⟨List.Pairwise.cons ?_ ihp, ?_⟩
        · intro g2 hg2 x hx hx2
          have := ihn g2 hg2 x hx2
          exact this (List.mem_append.mpr (Or.inr hx))
        · intro g hg x hx
          rcases List.mem_cons.mp hg with rfl | hg'
          · exact mem_anchorGroup_not_processed hi hx
          · intro hxp
            exact ihn g hg' x hx (List.mem_append.mpr (Or.inl hxp))
      · rw [if_neg hlen]
        exact ih processed

/-- **C10**: the duplicate groups returned by
`YouTubeMusicDeduplicator.find_duplicates` are pairwise disjoint — no library
song index belongs to the member list of two distinct groups (each group's
indices are marked processed when the group is emitted, and both the anchor
loop and the inner scan skip processed indices). -/
theorem find_duplicates_disjoint (isDup : ℕ → ℕ → Bool) (n : ℕ) :
    List.Pairwise (fun g1 g2 => ∀ x ∈ g1, x ∉ g2) (findDuplicates isDup n) :=
  (findDupGo_disjoint isDup n (List.range n) []).1
